import Mathlib

/-!
Verification of the Sierpinski tetrahedron ray-marching renderer
(`sierpinski.c`, the "simple" variant, and `sierpinski_enhanced.c`, the
"enhanced" variant).  The GLSL shader arithmetic is embedded with exact
real-number semantics (`ℝ`); the SDL event loop's camera/palette state is
embedded over `ℚ` and `ℤ`, which makes it fully executable.
-/

namespace SierpinskiRepo

/-- A 3-component vector, the embedding of GLSL `vec3`. -/
@[ext]
structure Vec3 where
  x : ℝ
  y : ℝ
  z : ℝ

noncomputable instance : Add Vec3 := ⟨fun a b => ⟨a.x + b.x, a.y + b.y, a.z + b.z⟩⟩

noncomputable instance : Sub Vec3 := ⟨fun a b => ⟨a.x - b.x, a.y - b.y, a.z - b.z⟩⟩

noncomputable instance : SMul ℝ Vec3 := ⟨fun r v => ⟨r * v.x, r * v.y, r * v.z⟩⟩

/-- GLSL `dot` for `vec3`. -/
noncomputable def dot (a b : Vec3) : ℝ := a.x * b.x + a.y * b.y + a.z * b.z

/-- GLSL `length` for `vec3`: `sqrt(dot(v, v))`. -/
noncomputable def length (v : Vec3) : ℝ := Real.sqrt (v.x ^ 2 + v.y ^ 2 + v.z ^ 2)

/-- GLSL componentwise `min` for `vec3`. -/
noncomputable def vmin (a b : Vec3) : Vec3 := ⟨min a.x b.x, min a.y b.y, min a.z b.z⟩

/-!
## Frame Driver state (enhanced variant, `main` in `sierpinski_enhanced.c`)

The mutable application state owned by the event loop, and the discrete
input events dispatched by the `switch` on `event.key.keysym.sym`.
-/

/-- The mutable state of the enhanced variant's main loop:
`running`, `colorPalette`, `cameraOffsetX/Y`, `cameraDistance`, and the
window dimensions (updated on resize). -/
structure AppState where
  running : Bool
  colorPalette : ℤ
  cameraOffsetX : ℚ
  cameraOffsetY : ℚ
  cameraDistance : ℚ
  windowWidth : ℤ
  windowHeight : ℤ
deriving DecidableEq

/-- Input events handled by the enhanced variant's event loop. -/
inductive Event where
  | quit
  | keyEscape
  | keyQ
  | keySpace
  | keyUp
  | keyDown
  | keyLeft
  | keyRight
  | keyPlus
  | keyEquals
  | keyMinus
  | keyR
  | otherKey
  | resize (w h : ℤ)
deriving DecidableEq

/-- Initial application state of `main`: `running = true`, `colorPalette = 0`,
`cameraOffsetX = cameraOffsetY = 0`, `cameraDistance = 4.5`, window 1920x1080. -/
def initAppState : AppState :=
  { running := true
    colorPalette := 0
    cameraOffsetX := 0
    cameraOffsetY := 0
    cameraDistance := 4.5
    windowWidth := 1920
    windowHeight := 1080 }

/-- One step of the enhanced variant's event dispatch (the `switch` in `main`).
`+`/`=` do `cameraDistance -= 0.2` then clamp below at `2.0`; `-` does
`cameraDistance += 0.2` then clamp above at `10.0`; SPACE cycles the palette
modulo 4; `r` resets the camera. -/
def handleEvent (s : AppState) (e : Event) : AppState :=
  match e with
  | .quit => { s with running := false }
  | .keyEscape => { s with running := false }
  | .keyQ => { s with running := false }
  | .keySpace => { s with colorPalette := (s.colorPalette + 1) % 4 }
  | .keyUp => { s with cameraOffsetY := s.cameraOffsetY + 0.1 }
  | .keyDown => { s with cameraOffsetY := s.cameraOffsetY - 0.1 }
  | .keyLeft => { s with cameraOffsetX := s.cameraOffsetX - 0.1 }
  | .keyRight => { s with cameraOffsetX := s.cameraOffsetX + 0.1 }
  | .keyPlus =>
      { s with cameraDistance :=
          if s.cameraDistance - 0.2 < 2 then 2 else s.cameraDistance - 0.2 }
  | .keyEquals =>
      { s with cameraDistance :=
          if s.cameraDistance - 0.2 < 2 then 2 else s.cameraDistance - 0.2 }
  | .keyMinus =>
      { s with cameraDistance :=
          if s.cameraDistance + 0.2 > 10 then 10 else s.cameraDistance + 0.2 }
  | .keyR =>
      { s with cameraOffsetX := 0, cameraOffsetY := 0, cameraDistance := 4.5 }
  | .otherKey => s
  | .resize w h => { s with windowWidth := w, windowHeight := h }

/-- Apply a finite sequence of input events, left to right. -/
def applyEvents (s : AppState) (evs : List Event) : AppState :=
  evs.foldl handleEvent s

/-- The state bounds claimed invariant: `cameraDistance ∈ [2, 10]` and
`colorPalette ∈ [0, 3]`. -/
def stateBounds (s : AppState) : Prop :=
  2 ≤ s.cameraDistance ∧ s.cameraDistance ≤ 10 ∧
    0 ≤ s.colorPalette ∧ s.colorPalette ≤ 3

/-!
## Simple variant (`sierpinski.c` fragment shader)
-/

namespace Simple

/-- Tetrahedron vertex `a1 = vec3(1.0, 1.0, 1.0)`. -/
noncomputable def a1 : Vec3 := ⟨1, 1, 1⟩

/-- Tetrahedron vertex `a2 = vec3(-1.0, -1.0, 1.0)`. -/
noncomputable def a2 : Vec3 := ⟨-1, -1, 1⟩

/-- Tetrahedron vertex `a3 = vec3(1.0, -1.0, -1.0)`. -/
noncomputable def a3 : Vec3 := ⟨1, -1, -1⟩

/-- Tetrahedron vertex `a4 = vec3(-1.0, 1.0, -1.0)`. -/
noncomputable def a4 : Vec3 := ⟨-1, 1, -1⟩

/-- `const int iterations = 12`. -/
def iterations : ℕ := 12

/-- `const float scale = 2.0`. -/
noncomputable def scale : ℝ := 2

/-- One candidate update of the nearest-vertex search in `sierpinskiSDF`:
`d = length(p - a); if (d < dist) { c = a; dist = d; }`. -/
noncomputable def selStep (p : Vec3) (cd : Vec3 × ℝ) (a : Vec3) : Vec3 × ℝ :=
  if length (p - a) < cd.2 then (a, length (p - a)) else cd

/-- The vertex `c` selected by one loop iteration of `sierpinskiSDF`:
start with `c = a1; dist = length(p - a1)` and apply the three sequential
strict-improvement updates for `a2`, `a3`, `a4`. -/
noncomputable def nearestVertex (p : Vec3) : Vec3 :=
  (selStep p (selStep p (selStep p (a1, length (p - a1)) a2) a3) a4).1

/-- One loop iteration of `sierpinskiSDF`:
`p = scale * p - c * (scale - 1.0)` with `c` the selected vertex. -/
noncomputable def sierpinskiStep (p : Vec3) : Vec3 :=
  scale • p - (scale - 1) • nearestVertex p

/-- `sierpinskiSDF` from `sierpinski.c`: run the folding loop for the full
iteration count, then return `length(p) * pow(scale, float(-n))`, where `n`
equals `iterations` after the loop. -/
noncomputable def sierpinskiSDF (p : Vec3) : ℝ :=
  length (sierpinskiStep^[iterations] p) * scale ^ (-(iterations : ℤ))

/-- Specification-level nearest-vertex selection, following the spec's words:
"find the nearest of the 4 vertices to the current point (ties broken by
vertex enumeration order, first-found wins)": the first vertex in enumeration
order `a1, a2, a3, a4` attaining the minimal distance. -/
noncomputable def specNearestVertex (p : Vec3) : Vec3 :=
  if length (p - a1) ≤ length (p - a2) ∧ length (p - a1) ≤ length (p - a3) ∧
      length (p - a1) ≤ length (p - a4) then a1
  else if length (p - a2) ≤ length (p - a3) ∧ length (p - a2) ≤ length (p - a4) then a2
  else if length (p - a3) ≤ length (p - a4) then a3
  else a4

/-- Specification-level contraction map
`p ← scale·p − nearestVertex·(scale−1)`. -/
noncomputable def specContraction (p : Vec3) : Vec3 :=
  scale • p - (scale - 1) • specNearestVertex p

/-- Specification-level distance estimator, following the spec's words: for a
fixed iteration count (12), iterate the contraction map; afterwards return
`distance = |p| · scale^(−iterationCount)` with the full iteration count as
exponent. -/
noncomputable def sierpinskiSDFspec (p : Vec3) : ℝ :=
  length (specContraction^[iterations] p) * scale ^ (-(iterations : ℤ))

/-- `const int maxSteps = 256`. -/
def maxSteps : ℕ := 256

/-- `const float maxDist = 20.0`. -/
noncomputable def maxDist : ℝ := 20

/-- `const float epsilon = 0.001`. -/
noncomputable def epsilon : ℝ := 0.001

/-- The marching loop of the simple `rayMarch`, indexed by remaining fuel,
carrying the current ray parameter `t` and the `steps` counter. Returns
(return value, `totalDist`, `steps`): on a hit (`dist < epsilon`) the C
function returns the sampled distance and writes the current `t` to the
out-parameter `totalDist`; when the loop ends (step budget exhausted, or
`t > maxDist` after advancing) it sets `totalDist = t` and returns `-1.0`. -/
noncomputable def rayMarchAux (ro rd : Vec3) : ℕ → ℝ → ℕ → ℝ × ℝ × ℕ
  | 0, t, steps => (-1, t, steps)
  | fuel + 1, t, steps =>
    let dist := sierpinskiSDF (ro + t • rd)
    if dist < epsilon then (dist, t, steps)
    else if t + dist * 0.5 > maxDist then (-1, t + dist * 0.5, steps + 1)
    else rayMarchAux ro rd fuel (t + dist * 0.5) (steps + 1)

/-- `rayMarch(ro, rd, steps, totalDist)` from `sierpinski.c`, starting at
`t = 0.0`, `steps = 0` with the full step budget. -/
noncomputable def rayMarch (ro rd : Vec3) : ℝ × ℝ × ℕ :=
  rayMarchAux ro rd maxSteps 0 0

/-- Mirror of the simple marching loop recording only whether a sampled
distance ever drops below the hit threshold before the loop terminates. -/
noncomputable def hits (ro rd : Vec3) : ℕ → ℝ → Bool
  | 0, _ => false
  | fuel + 1, t =>
    let dist := sierpinskiSDF (ro + t • rd)
    if dist < epsilon then true
    else if t + dist * 0.5 > maxDist then false
    else hits ro rd fuel (t + dist * 0.5)

end Simple

/-!
## Enhanced variant (`sierpinski_enhanced.c` fragment shader)
-/

namespace Enhanced

/-- `const int MAX_MARCH_STEPS = 200`. -/
def MAX_MARCH_STEPS : ℕ := 200

/-- `const float MAX_DIST = 50.0`. -/
noncomputable def MAX_DIST : ℝ := 50

/-- `const float HIT_THRESHOLD = 0.0001`. -/
noncomputable def HIT_THRESHOLD : ℝ := 0.0001

/-- `const int FRACTAL_ITERATIONS = 14`. -/
def FRACTAL_ITERATIONS : ℕ := 14

/-- `const float FRACTAL_SCALE = 2.0`. -/
noncomputable def FRACTAL_SCALE : ℝ := 2

/-- `const float TAU = 6.28318530718` (the shader's decimal approximation of
2π, exact as written). -/
noncomputable def TAU : ℝ := 6.28318530718

/-- First tetrahedral fold of `sdSierpinski`:
`if (z.x + z.y < 0) z.xy = -z.yx;`. -/
noncomputable def fold1 (z : Vec3) : Vec3 :=
  if z.x + z.y < 0 then (⟨-z.y, -z.x, z.z⟩ : Vec3) else z

/-- Second tetrahedral fold of `sdSierpinski`:
`if (z.x + z.z < 0) z.xz = -z.zx;`. -/
noncomputable def fold2 (z : Vec3) : Vec3 :=
  if z.x + z.z < 0 then (⟨-z.z, z.y, -z.x⟩ : Vec3) else z

/-- Third tetrahedral fold of `sdSierpinski`:
`if (z.y + z.z < 0) z.zy = -z.yz;`. -/
noncomputable def fold3 (z : Vec3) : Vec3 :=
  if z.y + z.z < 0 then (⟨z.x, -z.z, -z.y⟩ : Vec3) else z

/-- Extra fold of `sdSierpinski`: `if (z.x - z.y < 0) z.xy = z.yx;`. -/
noncomputable def fold4 (z : Vec3) : Vec3 :=
  if z.x - z.y < 0 then (⟨z.y, z.x, z.z⟩ : Vec3) else z

/-- The tetrahedral folding of one `sdSierpinski` iteration: the three
sign-conditioned folds followed by the extra fold, in source order. -/
noncomputable def fold (z : Vec3) : Vec3 :=
  fold4 (fold3 (fold2 (fold1 z)))

/-- Loop state of `sdSierpinski`: current `z`, derivative accumulator `dr`,
the orbit-trap accumulator, and the (dead) `minDist` accumulator. -/
structure IterState where
  z : Vec3
  dr : ℝ
  orbitTrap : Vec3
  minDist : ℝ

/-- The folded and scale-translated `z` computed by one `sdSierpinski`
iteration: the folds, then
`z = z * FRACTAL_SCALE - 1.0 * (FRACTAL_SCALE - 1.0)` componentwise. -/
noncomputable def nextZ (z : Vec3) : Vec3 :=
  let zf := fold z
  ⟨zf.x * FRACTAL_SCALE - 1 * (FRACTAL_SCALE - 1),
   zf.y * FRACTAL_SCALE - 1 * (FRACTAL_SCALE - 1),
   zf.z * FRACTAL_SCALE - 1 * (FRACTAL_SCALE - 1)⟩

/-- One loop iteration of `sdSierpinski`: fold and scale-translate `z`,
`dr = dr * FRACTAL_SCALE`, then accumulate the three orbit-trap running
minima (and the dead `minDist`) from the new `z`. -/
noncomputable def iterStep (s : IterState) : IterState :=
  let z := nextZ s.z
  let d := length z
  { z := z
    dr := s.dr * FRACTAL_SCALE
    orbitTrap := ⟨min s.orbitTrap.x d,
                  min s.orbitTrap.y (|z.x| + |z.y| + |z.z|),
                  min s.orbitTrap.z (dot z z)⟩
    minDist := min s.minDist d }

/-- Initial loop state of `sdSierpinski p`:
`z = p; dr = 1.0; orbitTrap = vec3(1e10); minDist = 1e10`. -/
noncomputable def initState (p : Vec3) : IterState :=
  ⟨p, 1, ⟨1e10, 1e10, 1e10⟩, 1e10⟩

/-- Loop state of `sdSierpinski p` after `k` of its iterations. -/
noncomputable def iterStateAt (p : Vec3) (k : ℕ) : IterState :=
  iterStep^[k] (initState p)

/-- The value sampled into the first orbit-trap component (`d = length(z)`)
during iteration `j` (0-based) of `sdSierpinski p`. -/
noncomputable def trapSample1 (p : Vec3) (j : ℕ) : ℝ :=
  length (iterStateAt p (j + 1)).z

/-- The value sampled into the second orbit-trap component
(`abs(z.x) + abs(z.y) + abs(z.z)`) during iteration `j` of `sdSierpinski p`. -/
noncomputable def trapSample2 (p : Vec3) (j : ℕ) : ℝ :=
  |(iterStateAt p (j + 1)).z.x| + |(iterStateAt p (j + 1)).z.y| +
    |(iterStateAt p (j + 1)).z.z|

/-- The value sampled into the third orbit-trap component (`dot(z, z)`)
during iteration `j` of `sdSierpinski p`. -/
noncomputable def trapSample3 (p : Vec3) (j : ℕ) : ℝ :=
  dot (iterStateAt p (j + 1)).z (iterStateAt p (j + 1)).z

/-- Running minimum of the first `k` samples of `f`, seeded with the reset
value `1e10`. -/
noncomputable def runMin (f : ℕ → ℝ) (k : ℕ) : ℝ :=
  (List.range k).foldl (fun m j => min m (f j)) 1e10

/-- `sdSierpinski(p, orbitTrap)` from `sierpinski_enhanced.c`; the
`out vec3 orbitTrap` argument becomes the second component of the result.
After `FRACTAL_ITERATIONS` iterations it returns `0.5 * r / dr` with
`r = length(z)`. -/
noncomputable def sdSierpinski (p : Vec3) : ℝ × Vec3 :=
  let s := iterStateAt p FRACTAL_ITERATIONS
  (0.5 * length s.z / s.dr, s.orbitTrap)

/-- The marching loop of the enhanced `rayMarch`, indexed by remaining fuel,
carrying the ray parameter `t` and the accumulated `orbitTrap`
(`orbitTrap = min(orbitTrap, trap)` componentwise each step, before the hit
test). On a hit (`d < HIT_THRESHOLD`) the function returns `t`; on loop
exhaustion or `t > MAX_DIST` after advancing it returns `-1.0`. -/
noncomputable def rayMarchAux (ro rd : Vec3) : ℕ → ℝ → Vec3 → ℝ × Vec3
  | 0, _, ot => (-1, ot)
  | fuel + 1, t, ot =>
    let d := (sdSierpinski (ro + t • rd)).1
    let ot' := vmin ot (sdSierpinski (ro + t • rd)).2
    if d < HIT_THRESHOLD then (t, ot')
    else if t + d * 0.6 > MAX_DIST then (-1, ot')
    else rayMarchAux ro rd fuel (t + d * 0.6) ot'

/-- `rayMarch(ro, rd, orbitTrap)` from `sierpinski_enhanced.c`, starting at
`t = 0.0` with `orbitTrap = vec3(1e10)` and the full step budget. -/
noncomputable def rayMarch (ro rd : Vec3) : ℝ × Vec3 :=
  rayMarchAux ro rd MAX_MARCH_STEPS 0 ⟨1e10, 1e10, 1e10⟩

/-- Mirror of the enhanced marching loop recording only whether a sampled
distance ever drops below the hit threshold before the loop terminates. -/
noncomputable def hits (ro rd : Vec3) : ℕ → ℝ → Bool
  | 0, _ => false
  | fuel + 1, t =>
    let d := (sdSierpinski (ro + t • rd)).1
    if d < HIT_THRESHOLD then true
    else if t + d * 0.6 > MAX_DIST then false
    else hits ro rd fuel (t + d * 0.6)

/-- `getColorPalette(t, palette)`: the four cosine palettes, each
`0.5 + 0.5 * cos(TAU * (t + offsets))` with a fixed phase-offset triple. -/
noncomputable def getColorPalette (t : ℝ) (palette : ℤ) : Vec3 :=
  if palette = 0 then
    ⟨0.5 + 0.5 * Real.cos (TAU * (t + 0)),
     0.5 + 0.5 * Real.cos (TAU * (t + 0.33)),
     0.5 + 0.5 * Real.cos (TAU * (t + 0.67))⟩
  else if palette = 1 then
    ⟨0.5 + 0.5 * Real.cos (TAU * (t + 0)),
     0.5 + 0.5 * Real.cos (TAU * (t + 0.1)),
     0.5 + 0.5 * Real.cos (TAU * (t + 0.2))⟩
  else if palette = 2 then
    ⟨0.5 + 0.5 * Real.cos (TAU * (t + 0.6)),
     0.5 + 0.5 * Real.cos (TAU * (t + 0.5)),
     0.5 + 0.5 * Real.cos (TAU * (t + 0.8))⟩
  else
    ⟨0.5 + 0.5 * Real.cos (TAU * (t + 0.15)),
     0.5 + 0.5 * Real.cos (TAU * (t + 0.1)),
     0.5 + 0.5 * Real.cos (TAU * (t + 0))⟩

/-- The fragment shader's per-sample hit test in `main`: surface shading
(normal, shadows, AO, lighting, reflection) is applied exactly when the
ray-march return value satisfies `t > 0.0`. -/
def shadesSurface (t : ℝ) : Prop := t > 0

end Enhanced

end SierpinskiRepo

namespace SierpinskiRepo

/-! ## Theorems -/

theorem handleEvent_preserves_bounds (s : AppState) (e : Event)
    (h : stateBounds s) : stateBounds (handleEvent s e) := by
  obtain ⟨h1, h2, h3, h4⟩ := h
  cases e with
  | keySpace =>
      refine ⟨h1, h2, ?_, ?_⟩
      · exact Int.emod_nonneg _ (by norm_num)
      · show (s.colorPalette + 1) % 4 ≤ 3
        have hlt := Int.emod_lt_of_pos (s.colorPalette + 1)
          (show (0 : ℤ) < 4 from by norm_num)
        rw [show (4 : ℤ) = 3 + 1 from rfl] at hlt
        exact Int.lt_add_one_iff.mp hlt
  | keyPlus =>
      refine ⟨?_, ?_, h3, h4⟩
      · show (2 : ℚ) ≤ if s.cameraDistance - 0.2 < 2 then 2 else s.cameraDistance - 0.2
        split_ifs with hc
        · exact le_refl 2
        · exact not_lt.mp hc
      · show (if s.cameraDistance - 0.2 < 2 then 2 else s.cameraDistance - 0.2) ≤ 10
        split_ifs with hc
        · norm_num
        · exact (sub_le_self _ (by norm_num : (0 : ℚ) ≤ 0.2)).trans h2
  | keyEquals =>
      refine ⟨?_, ?_, h3, h4⟩
      · show (2 : ℚ) ≤ if s.cameraDistance - 0.2 < 2 then 2 else s.cameraDistance - 0.2
        split_ifs with hc
        · exact le_refl 2
        · exact not_lt.mp hc
      · show (if s.cameraDistance - 0.2 < 2 then 2 else s.cameraDistance - 0.2) ≤ 10
        split_ifs with hc
        · norm_num
        · exact (sub_le_self _ (by norm_num : (0 : ℚ) ≤ 0.2)).trans h2
  | keyMinus =>
      refine ⟨?_, ?_, h3, h4⟩
      · show (2 : ℚ) ≤ if s.cameraDistance + 0.2 > 10 then 10 else s.cameraDistance + 0.2
        split_ifs with hc
        · norm_num
        · exact h1.trans (le_add_of_nonneg_right (by norm_num : (0 : ℚ) ≤ 0.2))
      · show (if s.cameraDistance + 0.2 > 10 then 10 else s.cameraDistance + 0.2) ≤ 10
        split_ifs with hc
        · exact le_refl 10
        · exact not_lt.mp hc
  | keyR =>
      refine ⟨?_, ?_, h3, h4⟩
      · show (2 : ℚ) ≤ 4.5
        norm_num
      · show (4.5 : ℚ) ≤ 10
        norm_num
  | _ => exact ⟨h1, h2, h3, h4⟩

theorem applyEvents_preserves_bounds (evs : List Event) :
    ∀ s : AppState, stateBounds s → stateBounds (applyEvents s evs) := by
  induction evs with
  | nil => intro s h; exact h
  | cons e es ih =>
      intro s h
      exact ih (handleEvent s e) (handleEvent_preserves_bounds s e h)

theorem initAppState_bounds : stateBounds initAppState := by
  refine ⟨?_, ?_, ?_, ?_⟩ <;> simp only [initAppState] <;> norm_num

/-- C5: for every finite sequence of input events applied from the initial
state (`colorPalette = 0`, `cameraDistance = 4.5`), the resulting
`cameraDistance` lies in `[2, 10]` and the resulting palette index lies in
`[0, 3]`; moreover every single event handler preserves these bounds. -/
theorem c5_state_invariant :
    (∀ evs : List Event, stateBounds (applyEvents initAppState evs)) ∧
      (∀ (s : AppState) (e : Event), stateBounds s → stateBounds (handleEvent s e)) := by
  constructor
  · intro evs
    exact applyEvents_preserves_bounds evs initAppState initAppState_bounds
  · exact handleEvent_preserves_bounds

/-- Witness for C5: the bounds hold in the initial state and are preserved by
a concrete SPACE event applied to it. -/
theorem c5_state_invariant_witness :
    stateBounds initAppState ∧ stateBounds (handleEvent initAppState Event.keySpace) :=
  ⟨initAppState_bounds, c5_state_invariant.2 initAppState Event.keySpace initAppState_bounds⟩

theorem handleEvent_keyPlus_dist (s : AppState) :
    (handleEvent s Event.keyPlus).cameraDistance =
      if s.cameraDistance - 0.2 < 2 then 2 else s.cameraDistance - 0.2 := rfl

theorem handleEvent_keyMinus_dist (s : AppState) :
    (handleEvent s Event.keyMinus).cameraDistance =
      if s.cameraDistance + 0.2 > 10 then 10 else s.cameraDistance + 0.2 := rfl

theorem pressPlus_closed_form (s : AppState) (k : ℕ) (h : 2 ≤ s.cameraDistance) :
    ((fun st => handleEvent st Event.keyPlus)^[k] s).cameraDistance
      = max 2 (s.cameraDistance - 0.2 * k) := by
  induction k with
  | zero =>
      simp only [Function.iterate_zero_apply, Nat.cast_zero, mul_zero, sub_zero]
      exact (max_eq_right h).symm
  | succ n ih =>
      simp only [Function.iterate_succ_apply']
      rw [handleEvent_keyPlus_dist, ih, Nat.cast_succ, mul_add, mul_one,
        sub_add_eq_sub_sub]
      rcases max_cases (2 : ℚ) (s.cameraDistance - 0.2 * n) with ⟨hmax, hle⟩ | ⟨hmax, hlt⟩
      · rw [hmax, if_pos (show (2 : ℚ) - 0.2 < 2 from by norm_num)]
        exact (max_eq_left
          ((sub_le_self _ (by norm_num : (0 : ℚ) ≤ 0.2)).trans hle)).symm
      · rw [hmax]
        split_ifs with hc
        · exact (max_eq_left hc.le).symm
        · exact (max_eq_right (not_lt.mp hc)).symm

theorem pressMinus_closed_form (s : AppState) (k : ℕ) (h : s.cameraDistance ≤ 10) :
    ((fun st => handleEvent st Event.keyMinus)^[k] s).cameraDistance
      = min 10 (s.cameraDistance + 0.2 * k) := by
  induction k with
  | zero =>
      simp only [Function.iterate_zero_apply, Nat.cast_zero, mul_zero, add_zero]
      exact (min_eq_right h).symm
  | succ n ih =>
      simp only [Function.iterate_succ_apply']
      rw [handleEvent_keyMinus_dist, ih, Nat.cast_succ, mul_add, mul_one,
        ← add_assoc]
      rcases min_cases (10 : ℚ) (s.cameraDistance + 0.2 * n) with ⟨hmin, hle⟩ | ⟨hmin, hlt⟩
      · rw [hmin, if_pos (show (10 : ℚ) + 0.2 > 10 from by norm_num)]
        exact (min_eq_left
          (hle.trans (le_add_of_nonneg_right (by norm_num : (0 : ℚ) ≤ 0.2)))).symm
      · rw [hmin]
        split_ifs with hc
        · exact (min_eq_left hc.le).symm
        · exact (min_eq_right (not_lt.mp hc)).symm

/-- C6: pressing `+` 100 times from `cameraDistance = 4.5` yields exactly
`2.0` (the lower clamp is reached and then held), and pressing `-` 100 times
from `cameraDistance = 2.0` yields exactly `10.0`. -/
theorem c6_clamp_idempotence :
    ((fun s => handleEvent s Event.keyPlus)^[100] initAppState).cameraDistance = 2 ∧
      ((fun s => handleEvent s Event.keyMinus)^[100]
        { initAppState with cameraDistance := 2 }).cameraDistance = 10 := by
  constructor
  · rw [pressPlus_closed_form initAppState 100 (by norm_num [initAppState])]
    rw [max_eq_left (by norm_num [initAppState])]
  · rw [pressMinus_closed_form { initAppState with cameraDistance := 2 } 100 (by norm_num)]
    rw [min_eq_left (by norm_num)]

theorem nearestVertex_eq_spec (p : Vec3) :
    Simple.nearestVertex p = Simple.specNearestVertex p := by
  unfold Simple.nearestVertex Simple.specNearestVertex Simple.selStep
  set d1 := length (p - Simple.a1) with hD1
  set d2 := length (p - Simple.a2) with hD2
  set d3 := length (p - Simple.a3) with hD3
  set d4 := length (p - Simple.a4) with hD4
  by_cases h2 : d2 < (Simple.a1, d1).2
  · have h2' : d2 < d1 := h2
    rw [if_pos h2]
    have hn1 : ¬ (d1 ≤ d2 ∧ d1 ≤ d3 ∧ d1 ≤ d4) :=
      fun hc => absurd hc.1 (not_le.mpr h2')
    by_cases h3 : d3 < (Simple.a2, d2).2
    · have h3' : d3 < d2 := h3
      rw [if_pos h3]
      have hn2 : ¬ (d2 ≤ d3 ∧ d2 ≤ d4) :=
        fun hc => absurd hc.1 (not_le.mpr h3')
      by_cases h4 : d4 < (Simple.a3, d3).2
      · have h4' : d4 < d3 := h4
        rw [if_pos h4, if_neg hn1, if_neg hn2, if_neg (not_le.mpr h4' : ¬ d3 ≤ d4)]
      · have h4' : d3 ≤ d4 := not_lt.mp h4
        rw [if_neg h4, if_neg hn1, if_neg hn2, if_pos h4']
    · have h3' : d2 ≤ d3 := not_lt.mp h3
      by_cases h4 : d4 < (Simple.a2, d2).2
      · have h4' : d4 < d2 := h4
        have hn2 : ¬ (d2 ≤ d3 ∧ d2 ≤ d4) :=
          fun hc => absurd hc.2 (not_le.mpr h4')
        rw [if_neg h3, if_pos h4, if_neg hn1, if_neg hn2,
          if_neg (not_le.mpr (lt_of_lt_of_le h4' h3') : ¬ d3 ≤ d4)]
      · have h4' : d2 ≤ d4 := not_lt.mp h4
        rw [if_neg h3, if_neg h4, if_neg hn1, if_pos ⟨h3', h4'⟩]
  · have h2' : d1 ≤ d2 := not_lt.mp h2
    rw [if_neg h2]
    by_cases h3 : d3 < (Simple.a1, d1).2
    · have h3' : d3 < d1 := h3
      rw [if_pos h3]
      have hn1 : ¬ (d1 ≤ d2 ∧ d1 ≤ d3 ∧ d1 ≤ d4) :=
        fun hc => absurd hc.2.1 (not_le.mpr h3')
      have hn2 : ¬ (d2 ≤ d3 ∧ d2 ≤ d4) :=
        fun hc => absurd hc.1 (not_le.mpr (lt_of_lt_of_le h3' h2'))
      by_cases h4 : d4 < (Simple.a3, d3).2
      · have h4' : d4 < d3 := h4
        rw [if_pos h4, if_neg hn1, if_neg hn2, if_neg (not_le.mpr h4' : ¬ d3 ≤ d4)]
      · have h4' : d3 ≤ d4 := not_lt.mp h4
        rw [if_neg h4, if_neg hn1, if_neg hn2, if_pos h4']
    · have h3' : d1 ≤ d3 := not_lt.mp h3
      by_cases h4 : d4 < (Simple.a1, d1).2
      · have h4' : d4 < d1 := h4
        have hn1 : ¬ (d1 ≤ d2 ∧ d1 ≤ d3 ∧ d1 ≤ d4) :=
          fun hc => absurd hc.2.2 (not_le.mpr h4')
        have hn2 : ¬ (d2 ≤ d3 ∧ d2 ≤ d4) :=
          fun hc => absurd hc.2 (not_le.mpr (lt_of_lt_of_le h4' h2'))
        rw [if_neg h3, if_pos h4, if_neg hn1, if_neg hn2,
          if_neg (not_le.mpr (lt_of_lt_of_le h4' h3') : ¬ d3 ≤ d4)]
      · have h4' : d1 ≤ d4 := not_lt.mp h4
        rw [if_neg h3, if_neg h4, if_pos ⟨h2', h3', h4'⟩]

theorem sierpinskiStep_eq_spec : Simple.sierpinskiStep = Simple.specContraction := by
  funext p
  unfold Simple.sierpinskiStep Simple.specContraction
  rw [nearestVertex_eq_spec]

/-- C2: the simple distance estimator performs exactly 12 iterations, each
selecting the first-found nearest of the 4 fixed vertices and applying
`p ← scale·p − nearestVertex·(scale−1)` with `scale = 2`, and after all 12
iterations returns `|p| · scale^(−12)` with the full iteration count as
exponent: it coincides with the specification-level estimator, and its value
is literally `length (step^[12] p) * 2^(-12)`. -/
theorem c2_simple_sdf_refines_spec (p : Vec3) :
    Simple.sierpinskiSDF p = Simple.sierpinskiSDFspec p ∧
      Simple.sierpinskiSDF p
        = length (Simple.sierpinskiStep^[12] p) * (2 : ℝ) ^ (-(12 : ℤ)) := by
  constructor
  · unfold Simple.sierpinskiSDF Simple.sierpinskiSDFspec
    rw [sierpinskiStep_eq_spec]
  · rfl

@[simp] theorem vec3_add_x (a b : Vec3) : (a + b).x = a.x + b.x := rfl

@[simp] theorem vec3_add_y (a b : Vec3) : (a + b).y = a.y + b.y := rfl

@[simp] theorem vec3_add_z (a b : Vec3) : (a + b).z = a.z + b.z := rfl

@[simp] theorem vec3_sub_x (a b : Vec3) : (a - b).x = a.x - b.x := rfl

@[simp] theorem vec3_sub_y (a b : Vec3) : (a - b).y = a.y - b.y := rfl

@[simp] theorem vec3_sub_z (a b : Vec3) : (a - b).z = a.z - b.z := rfl

@[simp] theorem vec3_smul_x (r : ℝ) (v : Vec3) : (r • v).x = r * v.x := rfl

@[simp] theorem vec3_smul_y (r : ℝ) (v : Vec3) : (r • v).y = r * v.y := rfl

@[simp] theorem vec3_smul_z (r : ℝ) (v : Vec3) : (r • v).z = r * v.z := rfl

theorem length_nonneg (v : Vec3) : 0 ≤ length v := Real.sqrt_nonneg _

theorem abs_z_le_length (v : Vec3) : |v.z| ≤ length v := by
  rw [length, ← Real.sqrt_sq_eq_abs]
  exact Real.sqrt_le_sqrt
    (le_add_of_nonneg_left (add_nonneg (sq_nonneg _) (sq_nonneg _)))

theorem vec3_mk_sub (a b c d e f : ℝ) :
    (⟨a, b, c⟩ : Vec3) - ⟨d, e, f⟩ = ⟨a - d, b - e, c - f⟩ := rfl

theorem vec3_mk_eq (a b c d e f : ℝ) (h1 : a = d) (h2 : b = e) (h3 : c = f) :
    (⟨a, b, c⟩ : Vec3) = ⟨d, e, f⟩ := by
  rw [h1, h2, h3]

theorem sum_sq_nonneg (a b c : ℝ) : 0 ≤ a ^ 2 + b ^ 2 + c ^ 2 :=
  add_nonneg (add_nonneg (sq_nonneg a) (sq_nonneg b)) (sq_nonneg c)

theorem mul_half (x : ℝ) : x * 0.5 = x / 2 := by
  rw [show (0.5 : ℝ) = 1 / 2 from by norm_num, mul_one_div]

theorem add3_lt_left (A B C B' C' : ℝ) (h : B + C < B' + C') :
    A + B + C < A + B' + C' := by
  have h1 := add_lt_add_left h A
  rwa [← add_assoc, ← add_assoc] at h1

theorem sq_diff_four (x : ℝ) : (x + 1) ^ 2 = (x - 1) ^ 2 + 4 * x := by ring

theorem sq_cmp_sum (y z : ℝ) (h : 0 < y + z) :
    (y - 1) ^ 2 + (z - 1) ^ 2 < (y + 1) ^ 2 + (z + 1) ^ 2 := by
  rw [sq_diff_four y, sq_diff_four z, add_add_add_comm]
  refine lt_add_of_pos_right _ ?_
  have h4 : (0 : ℝ) < 4 * (y + z) := mul_pos (by norm_num) h
  rwa [mul_add] at h4

theorem sq_cmp_swap (y z : ℝ) (h : y < z) :
    (y + 1) ^ 2 + (z - 1) ^ 2 < (y - 1) ^ 2 + (z + 1) ^ 2 := by
  rw [sq_diff_four y, sq_diff_four z, add_assoc, add_comm (4 * y) ((z - 1) ^ 2)]
  exact add_lt_add_left
    (add_lt_add_left (mul_lt_mul_of_pos_left h (by norm_num)) _) _

theorem sq_le_cmp (w : ℝ) (h : 0 ≤ w) : (w - 1) ^ 2 ≤ (w + 1) ^ 2 := by
  rw [sq_diff_four w]
  exact le_add_of_nonneg_right (mul_nonneg (by norm_num) h)

theorem two_pow_succ_mul (m : ℕ) (c : ℝ) :
    (2 : ℝ) ^ (m + 1) * c = 2 * (2 ^ m * c) := by
  rw [pow_succ, mul_comm ((2 : ℝ) ^ m) 2, mul_assoc]

theorem iter_z_one (z : ℝ) : 2 * z - 1 = (2 : ℝ) ^ (1 : ℕ) * (z - 1) + 1 := by
  rw [pow_one, mul_sub, mul_one, sub_add, show (2 : ℝ) - 1 = 1 from by norm_num]

theorem iter_z_succ (m : ℕ) (w : ℝ) :
    2 * ((2 : ℝ) ^ m * w + 1) - 1 = 2 ^ (m + 1) * w + 1 := by
  rw [mul_add, mul_one, ← mul_assoc,
    show (2 : ℝ) * 2 ^ m = 2 ^ (m + 1) from by rw [pow_succ, mul_comm],
    add_sub_assoc]
  norm_num

theorem step_eval (v c : Vec3) (h : Simple.nearestVertex v = c) :
    Simple.sierpinskiStep v = ⟨2 * v.x - c.x, 2 * v.y - c.y, 2 * v.z - c.z⟩ := by
  unfold Simple.sierpinskiStep Simple.scale
  rw [h]
  refine Vec3.ext ?_ ?_ ?_ <;>
    dsimp only [vec3_sub_x, vec3_sub_y, vec3_sub_z,
      vec3_smul_x, vec3_smul_y, vec3_smul_z] <;>
    rw [show ((2 : ℝ) - 1) = 1 from by norm_num, one_mul]

theorem sqrt_two_add_sq_lb (u : ℝ) (hu : 0 ≤ u) : u ≤ Real.sqrt (2 + u ^ 2) :=
  calc u = Real.sqrt (u ^ 2) := (Real.sqrt_sq hu).symm
    _ ≤ Real.sqrt (2 + u ^ 2) :=
      Real.sqrt_le_sqrt (le_add_of_nonneg_left (by norm_num : (0 : ℝ) ≤ 2))

theorem add_ub_id (u : ℝ) : (u + 3 / 2) ^ 2 = u ^ 2 + (3 * u + 9 / 4) := by ring

theorem sqrt_two_add_sq_ub (u : ℝ) (hu : 0 ≤ u) :
    Real.sqrt (2 + u ^ 2) ≤ u + 3 / 2 :=
  calc Real.sqrt (2 + u ^ 2) ≤ Real.sqrt ((u + 3 / 2) ^ 2) :=
        Real.sqrt_le_sqrt (by
          rw [add_ub_id u, add_comm 2 (u ^ 2)]
          exact add_le_add_left ((by norm_num : (2 : ℝ) ≤ 9 / 4).trans
            (le_add_of_nonneg_left (mul_nonneg (by norm_num) hu))) _)
    _ = u + 3 / 2 := Real.sqrt_sq (add_nonneg hu (by norm_num))

theorem sqrt_two_add_sq_lt_iff (u : ℝ) :
    Real.sqrt (2 + u ^ 2) * (1 / 4096) < 0.001 ↔
      2 + u ^ 2 < (512 / 125 : ℝ) ^ 2 := by
  rw [mul_one_div, div_lt_iff₀ (by norm_num : (0 : ℝ) < 4096),
    show (0.001 : ℝ) * 4096 = 512 / 125 from by norm_num]
  exact Real.sqrt_lt' (by norm_num)

theorem hit_window (w : ℝ) (h0 : 0 < w) (h1 : w ≤ 1 / 4096) :
    2 + (4096 * w + 1) ^ 2 < (512 / 125 : ℝ) ^ 2 := by
  have hu0 : (0 : ℝ) ≤ 4096 * w + 1 :=
    add_nonneg (mul_nonneg (by norm_num) h0.le) zero_le_one
  have hm : (4096 : ℝ) * w ≤ 4096 * (1 / 4096) :=
    mul_le_mul_of_nonneg_left h1 (by norm_num)
  rw [show (4096 : ℝ) * (1 / 4096) = 1 from by norm_num] at hm
  have hu2 : 4096 * w + 1 ≤ 2 := by
    have h2 := add_le_add_right hm 1
    rwa [show (1 : ℝ) + 1 = 2 from by norm_num] at h2
  have hsq : (4096 * w + 1) ^ 2 ≤ (2 : ℝ) ^ 2 :=
    sq_le_sq' ((by norm_num : (-2 : ℝ) ≤ 0).trans hu0) hu2
  exact lt_of_le_of_lt (add_le_add_left hsq 2)
    (by norm_num : (2 : ℝ) + 2 ^ 2 < (512 / 125) ^ 2)

theorem nonhit_delta (w : ℝ) (h0 : 0 < w)
    (hsq : (512 / 125 : ℝ) ^ 2 ≤ 2 + (4096 * w + 1) ^ 2) : 7 / 10240 ≤ w := by
  by_contra hcon
  push_neg at hcon
  have hu0 : (0 : ℝ) ≤ 4096 * w + 1 :=
    add_nonneg (mul_nonneg (by norm_num) h0.le) zero_le_one
  have hm : (4096 : ℝ) * w < 4096 * (7 / 10240) :=
    mul_lt_mul_of_pos_left hcon (by norm_num)
  rw [show (4096 : ℝ) * (7 / 10240) = 14 / 5 from by norm_num] at hm
  have hu2 : 4096 * w + 1 < 19 / 5 := by
    have h2 := add_lt_add_right hm 1
    rwa [show (14 / 5 : ℝ) + 1 = 19 / 5 from by norm_num] at h2
  have hsq2 : (4096 * w + 1) ^ 2 < (19 / 5 : ℝ) ^ 2 :=
    sq_lt_sq' (lt_of_lt_of_le (by norm_num : (-(19 / 5) : ℝ) < 0) hu0) hu2
  exact absurd hsq (not_le.mpr ((add_lt_add_left hsq2 2).trans
    (by norm_num : (2 : ℝ) + (19 / 5) ^ 2 < (512 / 125) ^ 2)))

theorem simple_sdf_nonneg (p : Vec3) : 0 ≤ Simple.sierpinskiSDF p :=
  mul_nonneg (length_nonneg _) (zpow_nonneg (by norm_num [Simple.scale]) _)

theorem iterStep_z (s : Enhanced.IterState) :
    (Enhanced.iterStep s).z = Enhanced.nextZ s.z := rfl

theorem iterStep_dr (s : Enhanced.IterState) :
    (Enhanced.iterStep s).dr = s.dr * Enhanced.FRACTAL_SCALE := rfl

theorem iterStep_trap (s : Enhanced.IterState) :
    (Enhanced.iterStep s).orbitTrap =
      ⟨min s.orbitTrap.x (length (Enhanced.nextZ s.z)),
       min s.orbitTrap.y (|(Enhanced.nextZ s.z).x| + |(Enhanced.nextZ s.z).y| +
         |(Enhanced.nextZ s.z).z|),
       min s.orbitTrap.z (dot (Enhanced.nextZ s.z) (Enhanced.nextZ s.z))⟩ := rfl

theorem iterStateAt_succ (p : Vec3) (k : ℕ) :
    Enhanced.iterStateAt p (k + 1) = Enhanced.iterStep (Enhanced.iterStateAt p k) := by
  unfold Enhanced.iterStateAt
  rw [Function.iterate_succ_apply']

theorem enhanced_dr_at (p : Vec3) (k : ℕ) :
    (Enhanced.iterStateAt p k).dr = 2 ^ k := by
  induction k with
  | zero => rfl
  | succ n ih =>
      rw [iterStateAt_succ, iterStep_dr, ih, Enhanced.FRACTAL_SCALE]
      ring

theorem enhanced_sdf_nonneg (p : Vec3) : 0 ≤ (Enhanced.sdSierpinski p).1 := by
  show 0 ≤ 0.5 * length (Enhanced.iterStateAt p Enhanced.FRACTAL_ITERATIONS).z /
    (Enhanced.iterStateAt p Enhanced.FRACTAL_ITERATIONS).dr
  rw [enhanced_dr_at]
  apply div_nonneg (mul_nonneg (by norm_num) (length_nonneg _))
  positivity

theorem simple_aux_hit (ro rd : Vec3) (fuel : ℕ) (t : ℝ) (steps : ℕ)
    (h : Simple.sierpinskiSDF (ro + t • rd) < Simple.epsilon) :
    Simple.rayMarchAux ro rd (fuel + 1) t steps
      = (Simple.sierpinskiSDF (ro + t • rd), t, steps) := by
  simp only [Simple.rayMarchAux]
  rw [if_pos h]

theorem simple_aux_advance (ro rd : Vec3) (fuel : ℕ) (t : ℝ) (steps : ℕ)
    (h : ¬ Simple.sierpinskiSDF (ro + t • rd) < Simple.epsilon)
    (h2 : ¬ t + Simple.sierpinskiSDF (ro + t • rd) * 0.5 > Simple.maxDist) :
    Simple.rayMarchAux ro rd (fuel + 1) t steps
      = Simple.rayMarchAux ro rd fuel
          (t + Simple.sierpinskiSDF (ro + t • rd) * 0.5) (steps + 1) := by
  simp only [Simple.rayMarchAux]
  rw [if_neg h, if_neg h2]

theorem simple_aux_break (ro rd : Vec3) (fuel : ℕ) (t : ℝ) (steps : ℕ)
    (h : ¬ Simple.sierpinskiSDF (ro + t • rd) < Simple.epsilon)
    (h2 : t + Simple.sierpinskiSDF (ro + t • rd) * 0.5 > Simple.maxDist) :
    Simple.rayMarchAux ro rd (fuel + 1) t steps
      = (-1, t + Simple.sierpinskiSDF (ro + t • rd) * 0.5, steps + 1) := by
  simp only [Simple.rayMarchAux]
  rw [if_neg h, if_pos h2]

theorem enhanced_aux_hit (ro rd : Vec3) (fuel : ℕ) (t : ℝ) (ot : Vec3)
    (h : (Enhanced.sdSierpinski (ro + t • rd)).1 < Enhanced.HIT_THRESHOLD) :
    Enhanced.rayMarchAux ro rd (fuel + 1) t ot
      = (t, vmin ot (Enhanced.sdSierpinski (ro + t • rd)).2) := by
  simp only [Enhanced.rayMarchAux]
  rw [if_pos h]

theorem enhanced_aux_advance (ro rd : Vec3) (fuel : ℕ) (t : ℝ) (ot : Vec3)
    (h : ¬ (Enhanced.sdSierpinski (ro + t • rd)).1 < Enhanced.HIT_THRESHOLD)
    (h2 : ¬ t + (Enhanced.sdSierpinski (ro + t • rd)).1 * 0.6 > Enhanced.MAX_DIST) :
    Enhanced.rayMarchAux ro rd (fuel + 1) t ot
      = Enhanced.rayMarchAux ro rd fuel
          (t + (Enhanced.sdSierpinski (ro + t • rd)).1 * 0.6)
          (vmin ot (Enhanced.sdSierpinski (ro + t • rd)).2) := by
  simp only [Enhanced.rayMarchAux]
  rw [if_neg h, if_neg h2]

theorem enhanced_aux_break (ro rd : Vec3) (fuel : ℕ) (t : ℝ) (ot : Vec3)
    (h : ¬ (Enhanced.sdSierpinski (ro + t • rd)).1 < Enhanced.HIT_THRESHOLD)
    (h2 : t + (Enhanced.sdSierpinski (ro + t • rd)).1 * 0.6 > Enhanced.MAX_DIST) :
    Enhanced.rayMarchAux ro rd (fuel + 1) t ot
      = (-1, vmin ot (Enhanced.sdSierpinski (ro + t • rd)).2) := by
  simp only [Enhanced.rayMarchAux]
  rw [if_neg h, if_pos h2]

theorem simple_aux_sign (ro rd : Vec3) :
    ∀ (fuel : ℕ) (t : ℝ) (steps : ℕ),
      (Simple.rayMarchAux ro rd fuel t steps).1 = -1 ∨
        0 ≤ (Simple.rayMarchAux ro rd fuel t steps).1 := by
  intro fuel
  induction fuel with
  | zero => intro t steps; left; rfl
  | succ n ih =>
      intro t steps
      by_cases h : Simple.sierpinskiSDF (ro + t • rd) < Simple.epsilon
      · right
        rw [simple_aux_hit ro rd n t steps h]
        exact simple_sdf_nonneg _
      · by_cases h2 : t + Simple.sierpinskiSDF (ro + t • rd) * 0.5 > Simple.maxDist
        · left; rw [simple_aux_break ro rd n t steps h h2]
        · rw [simple_aux_advance ro rd n t steps h h2]
          exact ih _ _

theorem enhanced_aux_sign (ro rd : Vec3) :
    ∀ (fuel : ℕ) (t : ℝ) (ot : Vec3), 0 ≤ t →
      (Enhanced.rayMarchAux ro rd fuel t ot).1 = -1 ∨
        0 ≤ (Enhanced.rayMarchAux ro rd fuel t ot).1 := by
  intro fuel
  induction fuel with
  | zero => intro t ot _; left; rfl
  | succ n ih =>
      intro t ot ht
      by_cases h : (Enhanced.sdSierpinski (ro + t • rd)).1 < Enhanced.HIT_THRESHOLD
      · right
        rw [enhanced_aux_hit ro rd n t ot h]
        exact ht
      · by_cases h2 : t + (Enhanced.sdSierpinski (ro + t • rd)).1 * 0.6 > Enhanced.MAX_DIST
        · left; rw [enhanced_aux_break ro rd n t ot h h2]
        · rw [enhanced_aux_advance ro rd n t ot h h2]
          exact ih _ _ (add_nonneg ht
            (mul_nonneg (enhanced_sdf_nonneg _) (by norm_num : (0 : ℝ) ≤ 0.6)))

/-- C1: for every ray, the return value of each variant's `rayMarch` is
either `≥ 0` (surface found) or the sentinel `-1` (miss); and whenever the
distance sampled at the current `t` falls below the hit threshold (`1e-3`
simple, `1e-4` enhanced), the marcher stops at that step and the hit distance
it reports is exactly the accumulated parameter `t` (the simple variant
writes it to the out-parameter `totalDist` and returns the sampled distance,
the enhanced variant returns `t` itself). -/
theorem c1_raymarch_contract (ro rd : Vec3) :
    ((Simple.rayMarch ro rd).1 = -1 ∨ 0 ≤ (Simple.rayMarch ro rd).1) ∧
      ((Enhanced.rayMarch ro rd).1 = -1 ∨ 0 ≤ (Enhanced.rayMarch ro rd).1) ∧
      (∀ (fuel : ℕ) (t : ℝ) (steps : ℕ),
        Simple.sierpinskiSDF (ro + t • rd) < Simple.epsilon →
          Simple.rayMarchAux ro rd (fuel + 1) t steps
            = (Simple.sierpinskiSDF (ro + t • rd), t, steps)) ∧
      (∀ (fuel : ℕ) (t : ℝ) (ot : Vec3),
        (Enhanced.sdSierpinski (ro + t • rd)).1 < Enhanced.HIT_THRESHOLD →
          Enhanced.rayMarchAux ro rd (fuel + 1) t ot
            = (t, vmin ot (Enhanced.sdSierpinski (ro + t • rd)).2)) :=
  ⟨simple_aux_sign ro rd Simple.maxSteps 0 0,
   enhanced_aux_sign ro rd Enhanced.MAX_MARCH_STEPS 0 ⟨1e10, 1e10, 1e10⟩ le_rfl,
   fun fuel t steps h => simple_aux_hit ro rd fuel t steps h,
   fun fuel t ot h => enhanced_aux_hit ro rd fuel t ot h⟩

theorem length_mk (a b c : ℝ) :
    length ⟨a, b, c⟩ = Real.sqrt (a ^ 2 + b ^ 2 + c ^ 2) := rfl

theorem point_add_zero_smul (v w : Vec3) : v + (0 : ℝ) • w = v := by
  ext <;> simp

theorem nearest_one : Simple.nearestVertex ⟨1, 1, 1⟩ = Simple.a1 := by
  have h1 : length ((⟨1, 1, 1⟩ : Vec3) - Simple.a1) = 0 := by
    have e : ((⟨1, 1, 1⟩ : Vec3) - Simple.a1) = ⟨0, 0, 0⟩ := by
      unfold Simple.a1; ext <;> simp
    rw [e, length_mk]
    simp
  have hn : ∀ a : Vec3,
      ¬ length ((⟨1, 1, 1⟩ : Vec3) - a)
        < (Simple.a1, length ((⟨1, 1, 1⟩ : Vec3) - Simple.a1)).2 := by
    intro a
    show ¬ length ((⟨1, 1, 1⟩ : Vec3) - a) < length ((⟨1, 1, 1⟩ : Vec3) - Simple.a1)
    rw [h1]
    exact not_lt.mpr (length_nonneg _)
  unfold Simple.nearestVertex Simple.selStep
  rw [if_neg (hn Simple.a2), if_neg (hn Simple.a3), if_neg (hn Simple.a4)]

theorem simple_step_one : Simple.sierpinskiStep ⟨1, 1, 1⟩ = ⟨1, 1, 1⟩ := by
  unfold Simple.sierpinskiStep
  rw [nearest_one]
  unfold Simple.a1 Simple.scale
  ext <;> simp

theorem simple_sdf_one_lt : Simple.sierpinskiSDF ⟨1, 1, 1⟩ < Simple.epsilon := by
  unfold Simple.sierpinskiSDF
  rw [Function.iterate_fixed simple_step_one]
  have hl : length (⟨1, 1, 1⟩ : Vec3) = Real.sqrt 3 := by rw [length_mk]; norm_num
  rw [hl]
  have h2 : Simple.scale ^ (-(Simple.iterations : ℤ)) = (1 / 4096 : ℝ) := by
    unfold Simple.scale Simple.iterations
    norm_num
  rw [h2]
  have h3 : Real.sqrt 3 < 4.096 := (Real.sqrt_lt' (by norm_num)).2 (by norm_num)
  unfold Simple.epsilon
  exact lt_of_lt_of_le (mul_lt_mul_of_pos_right h3 (by norm_num))
    (by norm_num : (4.096 : ℝ) * (1 / 4096) ≤ 0.001)

theorem fold1_one : Enhanced.fold1 ⟨1, 1, 1⟩ = ⟨1, 1, 1⟩ := by
  unfold Enhanced.fold1
  rw [if_neg]
  show ¬ ((1 : ℝ) + 1 < 0)
  norm_num

theorem fold2_one : Enhanced.fold2 ⟨1, 1, 1⟩ = ⟨1, 1, 1⟩ := by
  unfold Enhanced.fold2
  rw [if_neg]
  show ¬ ((1 : ℝ) + 1 < 0)
  norm_num

theorem fold3_one : Enhanced.fold3 ⟨1, 1, 1⟩ = ⟨1, 1, 1⟩ := by
  unfold Enhanced.fold3
  rw [if_neg]
  show ¬ ((1 : ℝ) + 1 < 0)
  norm_num

theorem fold4_one : Enhanced.fold4 ⟨1, 1, 1⟩ = ⟨1, 1, 1⟩ := by
  unfold Enhanced.fold4
  rw [if_neg]
  show ¬ ((1 : ℝ) - 1 < 0)
  norm_num

theorem enhanced_fold_one : Enhanced.fold ⟨1, 1, 1⟩ = ⟨1, 1, 1⟩ := by
  unfold Enhanced.fold
  rw [fold1_one, fold2_one, fold3_one, fold4_one]

theorem enhanced_nextZ_one : Enhanced.nextZ ⟨1, 1, 1⟩ = ⟨1, 1, 1⟩ := by
  unfold Enhanced.nextZ
  rw [enhanced_fold_one]
  unfold Enhanced.FRACTAL_SCALE
  ext <;> norm_num

theorem enhanced_z_at_one (k : ℕ) :
    (Enhanced.iterStateAt ⟨1, 1, 1⟩ k).z = ⟨1, 1, 1⟩ := by
  induction k with
  | zero => rfl
  | succ n ih => rw [iterStateAt_succ, iterStep_z, ih, enhanced_nextZ_one]

theorem enhanced_sdf_one_lt :
    (Enhanced.sdSierpinski ⟨1, 1, 1⟩).1 < Enhanced.HIT_THRESHOLD := by
  show 0.5 * length (Enhanced.iterStateAt ⟨1, 1, 1⟩ Enhanced.FRACTAL_ITERATIONS).z /
      (Enhanced.iterStateAt ⟨1, 1, 1⟩ Enhanced.FRACTAL_ITERATIONS).dr
    < Enhanced.HIT_THRESHOLD
  rw [enhanced_dr_at, enhanced_z_at_one]
  have hl : length (⟨1, 1, 1⟩ : Vec3) = Real.sqrt 3 := by rw [length_mk]; norm_num
  rw [hl]
  have h3 : Real.sqrt 3 < 3.2768 := (Real.sqrt_lt' (by norm_num)).2 (by norm_num)
  have hp : (2 : ℝ) ^ Enhanced.FRACTAL_ITERATIONS = 16384 := by
    unfold Enhanced.FRACTAL_ITERATIONS; norm_num
  rw [hp]
  unfold Enhanced.HIT_THRESHOLD
  rw [div_lt_iff₀ (by norm_num : (0 : ℝ) < 16384)]
  exact lt_of_lt_of_le (mul_lt_mul_of_pos_left h3 (by norm_num))
    (by norm_num : (0.5 : ℝ) * 3.2768 ≤ 0.0001 * 16384)

/-- Witness for C1: a concrete ray whose origin point samples below both hit
thresholds, with the marcher stopping there and reporting the accumulated
parameter as the hit distance. -/
theorem c1_raymarch_contract_witness :
    Simple.sierpinskiSDF ((⟨1, 1, 1⟩ : Vec3) + (0 : ℝ) • (⟨0, 0, 1⟩ : Vec3))
        < Simple.epsilon ∧
      (Enhanced.sdSierpinski ((⟨1, 1, 1⟩ : Vec3) + (0 : ℝ) • (⟨0, 0, 1⟩ : Vec3))).1
        < Enhanced.HIT_THRESHOLD ∧
      Simple.rayMarchAux ⟨1, 1, 1⟩ ⟨0, 0, 1⟩ 1 0 0
        = (Simple.sierpinskiSDF ((⟨1, 1, 1⟩ : Vec3) + (0 : ℝ) • (⟨0, 0, 1⟩ : Vec3)), 0, 0) ∧
      Enhanced.rayMarchAux ⟨1, 1, 1⟩ ⟨0, 0, 1⟩ 1 0 ⟨1e10, 1e10, 1e10⟩
        = (0, vmin ⟨1e10, 1e10, 1e10⟩
            (Enhanced.sdSierpinski ((⟨1, 1, 1⟩ : Vec3) + (0 : ℝ) • (⟨0, 0, 1⟩ : Vec3))).2) := by
  have h1 : Simple.sierpinskiSDF ((⟨1, 1, 1⟩ : Vec3) + (0 : ℝ) • (⟨0, 0, 1⟩ : Vec3))
      < Simple.epsilon := by
    rw [point_add_zero_smul]; exact simple_sdf_one_lt
  have h2 : (Enhanced.sdSierpinski ((⟨1, 1, 1⟩ : Vec3) + (0 : ℝ) • (⟨0, 0, 1⟩ : Vec3))).1
      < Enhanced.HIT_THRESHOLD := by
    rw [point_add_zero_smul]; exact enhanced_sdf_one_lt
  exact ⟨h1, h2,
    (c1_raymarch_contract ⟨1, 1, 1⟩ ⟨0, 0, 1⟩).2.2.1 0 0 0 h1,
    (c1_raymarch_contract ⟨1, 1, 1⟩ ⟨0, 0, 1⟩).2.2.2 0 0 ⟨1e10, 1e10, 1e10⟩ h2⟩

/-- C9: both distance estimators are pure deterministic functions of the
input point: two evaluations with identical inputs yield identical results
(distance, and the orbit trap of the enhanced variant), with no dependence on
any other state. -/
theorem c9_sdf_purity (p q : Vec3) (h : p = q) :
    Simple.sierpinskiSDF p = Simple.sierpinskiSDF q ∧
      Enhanced.sdSierpinski p = Enhanced.sdSierpinski q := by
  rw [h]
  exact ⟨rfl, rfl⟩

/-- Witness for C9 at the concrete point `(0, 0, 0)`. -/
theorem c9_sdf_purity_witness :
    (⟨0, 0, 0⟩ : Vec3) = ⟨0, 0, 0⟩ ∧
      (Simple.sierpinskiSDF ⟨0, 0, 0⟩ = Simple.sierpinskiSDF ⟨0, 0, 0⟩ ∧
        Enhanced.sdSierpinski ⟨0, 0, 0⟩ = Enhanced.sdSierpinski ⟨0, 0, 0⟩) :=
  ⟨rfl, c9_sdf_purity ⟨0, 0, 0⟩ ⟨0, 0, 0⟩ rfl⟩

/-- C10: the enhanced fragment shader applies surface shading exactly when
the ray-march return value is strictly positive; a ray whose origin is
already within the hit threshold of the surface (here `(1,1,1)`) makes
`rayMarch` return exactly `t = 0`, which the `t > 0.0` test renders as
background, indistinguishable from the `-1` miss sentinel. -/
theorem c10_zero_hit_background :
    (Enhanced.rayMarch ⟨1, 1, 1⟩ ⟨0, 0, -1⟩).1 = 0 ∧
      ¬ Enhanced.shadesSurface ((Enhanced.rayMarch ⟨1, 1, 1⟩ ⟨0, 0, -1⟩).1) ∧
      ¬ Enhanced.shadesSurface (-1) ∧
      (∀ t : ℝ, Enhanced.shadesSurface t ↔ 0 < t) := by
  have h : (Enhanced.sdSierpinski ((⟨1, 1, 1⟩ : Vec3) + (0 : ℝ) • (⟨0, 0, -1⟩ : Vec3))).1
      < Enhanced.HIT_THRESHOLD := by
    rw [point_add_zero_smul]; exact enhanced_sdf_one_lt
  have h0 : (Enhanced.rayMarch ⟨1, 1, 1⟩ ⟨0, 0, -1⟩).1 = 0 :=
    congrArg Prod.fst (enhanced_aux_hit ⟨1, 1, 1⟩ ⟨0, 0, -1⟩ 199 0 ⟨1e10, 1e10, 1e10⟩ h)
  refine ⟨h0, ?_, ?_, fun t => Iff.rfl⟩
  · rw [h0]
    simp [Enhanced.shadesSurface]
  · norm_num [Enhanced.shadesSurface]

theorem getColorPalette_zero (t : ℝ) :
    Enhanced.getColorPalette t 0 =
      ⟨0.5 + 0.5 * Real.cos (Enhanced.TAU * (t + 0)),
       0.5 + 0.5 * Real.cos (Enhanced.TAU * (t + 0.33)),
       0.5 + 0.5 * Real.cos (Enhanced.TAU * (t + 0.67))⟩ := by
  unfold Enhanced.getColorPalette
  rw [if_pos rfl]

theorem getColorPalette_one (t : ℝ) :
    Enhanced.getColorPalette t 1 =
      ⟨0.5 + 0.5 * Real.cos (Enhanced.TAU * (t + 0)),
       0.5 + 0.5 * Real.cos (Enhanced.TAU * (t + 0.1)),
       0.5 + 0.5 * Real.cos (Enhanced.TAU * (t + 0.2))⟩ := by
  unfold Enhanced.getColorPalette
  rw [if_neg (by norm_num : ¬ (1 : ℤ) = 0), if_pos rfl]

theorem getColorPalette_two (t : ℝ) :
    Enhanced.getColorPalette t 2 =
      ⟨0.5 + 0.5 * Real.cos (Enhanced.TAU * (t + 0.6)),
       0.5 + 0.5 * Real.cos (Enhanced.TAU * (t + 0.5)),
       0.5 + 0.5 * Real.cos (Enhanced.TAU * (t + 0.8))⟩ := by
  unfold Enhanced.getColorPalette
  rw [if_neg (by norm_num : ¬ (2 : ℤ) = 0), if_neg (by norm_num : ¬ (2 : ℤ) = 1),
    if_pos rfl]

theorem getColorPalette_other (t : ℝ) (idx : ℤ) (h0 : ¬ idx = 0)
    (h1 : ¬ idx = 1) (h2 : ¬ idx = 2) :
    Enhanced.getColorPalette t idx =
      ⟨0.5 + 0.5 * Real.cos (Enhanced.TAU * (t + 0.15)),
       0.5 + 0.5 * Real.cos (Enhanced.TAU * (t + 0.1)),
       0.5 + 0.5 * Real.cos (Enhanced.TAU * (t + 0))⟩ := by
  unfold Enhanced.getColorPalette
  rw [if_neg h0, if_neg h1, if_neg h2]

/-- Counterexample for C7: in the shader's exact arithmetic the palette is
not 1-periodic in the hue, because `TAU = 6.28318530718` is not exactly 2π;
already at hue 0 with palette 0 the values at `0` and `0 + 1.0` differ. -/
theorem c7_palette_period_counterexample :
    Enhanced.getColorPalette (0 + 1) 0 ≠ Enhanced.getColorPalette 0 0 := by
  intro h
  rw [getColorPalette_zero, getColorPalette_zero, Vec3.mk.injEq] at h
  obtain ⟨hx, -, -⟩ := h
  have h1 : Enhanced.TAU * (0 + 1 + 0) = Enhanced.TAU := by
    rw [zero_add, add_zero, mul_one]
  have h2 : Enhanced.TAU * (0 + 0) = 0 := by
    rw [add_zero, mul_zero]
  rw [h1, h2, Real.cos_zero] at hx
  have hcos : Real.cos Enhanced.TAU = 1 :=
    mul_left_cancel₀ (by norm_num : (0.5 : ℝ) ≠ 0) (add_left_cancel hx)
  rw [Real.cos_eq_one_iff] at hcos
  obtain ⟨n, hn⟩ := hcos
  have hn0 : n ≠ 0 := by
    rintro rfl
    rw [Int.cast_zero, zero_mul] at hn
    norm_num [Enhanced.TAU] at hn
  have hnne : (n : ℝ) ≠ 0 := Int.cast_ne_zero.mpr hn0
  have hTAU : Enhanced.TAU = (628318530718 : ℝ) / 100000000000 := by
    norm_num [Enhanced.TAU]
  rw [hTAU] at hn
  have hq : ((628318530718 / (200000000000 * (n : ℚ)) : ℚ) : ℝ) = Real.pi := by
    push_cast
    rw [div_eq_iff (mul_ne_zero (by norm_num) hnne),
      show (200000000000 : ℝ) = 100000000000 * 2 from by norm_num,
      mul_comm Real.pi (100000000000 * 2 * (n : ℝ)), mul_assoc, mul_assoc,
      mul_left_comm 2 ((n : ℝ)) Real.pi, hn,
      mul_comm (100000000000 : ℝ) (628318530718 / 100000000000),
      div_mul_cancel₀ _ (by norm_num : (100000000000 : ℝ) ≠ 0)]
  exact irrational_pi ⟨_, hq⟩

/-- C7 amended: the palette functions are periodic in the hue with exact
period `2π / TAU` (which is only approximately 1.0, since the shader's `TAU`
constant only approximates 2π): for every hue and palette index,
`palette(hue + 2π/TAU, index) = palette(hue, index)`. -/
theorem c7_palette_true_period (t : ℝ) (idx : ℤ) :
    Enhanced.getColorPalette (t + 2 * Real.pi / Enhanced.TAU) idx
      = Enhanced.getColorPalette t idx := by
  have hT : Enhanced.TAU ≠ 0 := by norm_num [Enhanced.TAU]
  have key : ∀ c : ℝ,
      Real.cos (Enhanced.TAU * (t + 2 * Real.pi / Enhanced.TAU + c))
        = Real.cos (Enhanced.TAU * (t + c)) := by
    intro c
    have e : Enhanced.TAU * (t + 2 * Real.pi / Enhanced.TAU + c)
        = Enhanced.TAU * (t + c) + 2 * Real.pi := by
      rw [mul_add, mul_add, mul_add,
        mul_comm Enhanced.TAU (2 * Real.pi / Enhanced.TAU),
        div_mul_cancel₀ _ hT, add_right_comm]
    rw [e, Real.cos_add_two_pi]
  by_cases h0 : idx = 0
  · subst h0
    rw [getColorPalette_zero, getColorPalette_zero]
    exact Vec3.ext (congrArg (fun x => 0.5 + 0.5 * x) (key _))
      (congrArg (fun x => 0.5 + 0.5 * x) (key _))
      (congrArg (fun x => 0.5 + 0.5 * x) (key _))
  · by_cases h1 : idx = 1
    · subst h1
      rw [getColorPalette_one, getColorPalette_one]
      exact Vec3.ext (congrArg (fun x => 0.5 + 0.5 * x) (key _))
        (congrArg (fun x => 0.5 + 0.5 * x) (key _))
        (congrArg (fun x => 0.5 + 0.5 * x) (key _))
    · by_cases h2 : idx = 2
      · subst h2
        rw [getColorPalette_two, getColorPalette_two]
        exact Vec3.ext (congrArg (fun x => 0.5 + 0.5 * x) (key _))
          (congrArg (fun x => 0.5 + 0.5 * x) (key _))
          (congrArg (fun x => 0.5 + 0.5 * x) (key _))
      · rw [getColorPalette_other _ _ h0 h1 h2, getColorPalette_other _ _ h0 h1 h2]
        exact Vec3.ext (congrArg (fun x => 0.5 + 0.5 * x) (key _))
          (congrArg (fun x => 0.5 + 0.5 * x) (key _))
          (congrArg (fun x => 0.5 + 0.5 * x) (key _))

theorem runMin_succ (f : ℕ → ℝ) (k : ℕ) :
    Enhanced.runMin f (k + 1) = min (Enhanced.runMin f k) (f k) := by
  unfold Enhanced.runMin
  rw [List.range_succ, List.foldl_append]
  rfl

theorem trapSample1_eq (p : Vec3) (k : ℕ) :
    Enhanced.trapSample1 p k = length (Enhanced.nextZ (Enhanced.iterStateAt p k).z) := by
  unfold Enhanced.trapSample1
  rw [iterStateAt_succ, iterStep_z]

theorem trapSample2_eq (p : Vec3) (k : ℕ) :
    Enhanced.trapSample2 p k
      = |(Enhanced.nextZ (Enhanced.iterStateAt p k).z).x| +
          |(Enhanced.nextZ (Enhanced.iterStateAt p k).z).y| +
          |(Enhanced.nextZ (Enhanced.iterStateAt p k).z).z| := by
  unfold Enhanced.trapSample2
  rw [iterStateAt_succ, iterStep_z]

theorem trapSample3_eq (p : Vec3) (k : ℕ) :
    Enhanced.trapSample3 p k
      = dot (Enhanced.nextZ (Enhanced.iterStateAt p k).z)
          (Enhanced.nextZ (Enhanced.iterStateAt p k).z) := by
  unfold Enhanced.trapSample3
  rw [iterStateAt_succ, iterStep_z]

theorem trap_runmin (p : Vec3) (k : ℕ) :
    (Enhanced.iterStateAt p k).orbitTrap.x = Enhanced.runMin (Enhanced.trapSample1 p) k ∧
      (Enhanced.iterStateAt p k).orbitTrap.y = Enhanced.runMin (Enhanced.trapSample2 p) k ∧
      (Enhanced.iterStateAt p k).orbitTrap.z = Enhanced.runMin (Enhanced.trapSample3 p) k := by
  induction k with
  | zero => exact ⟨rfl, rfl, rfl⟩
  | succ n ih =>
      obtain ⟨ih1, ih2, ih3⟩ := ih
      rw [iterStateAt_succ, iterStep_trap]
      refine ⟨?_, ?_, ?_⟩
      · show min (Enhanced.iterStateAt p n).orbitTrap.x
            (length (Enhanced.nextZ (Enhanced.iterStateAt p n).z)) = _
        rw [runMin_succ, ih1, trapSample1_eq]
      · show min (Enhanced.iterStateAt p n).orbitTrap.y _ = _
        rw [runMin_succ, ih2, trapSample2_eq]
      · show min (Enhanced.iterStateAt p n).orbitTrap.z _ = _
        rw [runMin_succ, ih3, trapSample3_eq]

theorem simple_aux_miss_iff (ro rd : Vec3) :
    ∀ (fuel : ℕ) (t : ℝ) (steps : ℕ),
      ((Simple.rayMarchAux ro rd fuel t steps).1 = -1 ↔
        Simple.hits ro rd fuel t = false) := by
  intro fuel
  induction fuel with
  | zero => intro t steps; simp [Simple.rayMarchAux, Simple.hits]
  | succ n ih =>
      intro t steps
      by_cases h : Simple.sierpinskiSDF (ro + t • rd) < Simple.epsilon
      · rw [simple_aux_hit ro rd n t steps h]
        have hh : Simple.hits ro rd (n + 1) t = true := by
          simp only [Simple.hits]; rw [if_pos h]
        rw [hh]
        constructor
        · intro hc
          exfalso
          have h0 := simple_sdf_nonneg (ro + t • rd)
          have he : Simple.sierpinskiSDF (ro + t • rd) = -1 := hc
          exact absurd (he ▸ h0) (by norm_num)
        · intro hc
          exact absurd hc (by simp)
      · by_cases h2 : t + Simple.sierpinskiSDF (ro + t • rd) * 0.5 > Simple.maxDist
        · rw [simple_aux_break ro rd n t steps h h2]
          have hh : Simple.hits ro rd (n + 1) t = false := by
            simp only [Simple.hits]; rw [if_neg h, if_pos h2]
          rw [hh]
          simp
        · rw [simple_aux_advance ro rd n t steps h h2]
          have hh : Simple.hits ro rd (n + 1) t
              = Simple.hits ro rd n (t + Simple.sierpinskiSDF (ro + t • rd) * 0.5) := by
            simp only [Simple.hits]; rw [if_neg h, if_neg h2]
          rw [hh]
          exact ih _ _

theorem enhanced_aux_miss_iff (ro rd : Vec3) :
    ∀ (fuel : ℕ) (t : ℝ) (ot : Vec3), 0 ≤ t →
      ((Enhanced.rayMarchAux ro rd fuel t ot).1 = -1 ↔
        Enhanced.hits ro rd fuel t = false) := by
  intro fuel
  induction fuel with
  | zero => intro t ot _; simp [Enhanced.rayMarchAux, Enhanced.hits]
  | succ n ih =>
      intro t ot ht
      by_cases h : (Enhanced.sdSierpinski (ro + t • rd)).1 < Enhanced.HIT_THRESHOLD
      · rw [enhanced_aux_hit ro rd n t ot h]
        have hh : Enhanced.hits ro rd (n + 1) t = true := by
          simp only [Enhanced.hits]; rw [if_pos h]
        rw [hh]
        constructor
        · intro hc
          exfalso
          have he : t = -1 := hc
          exact absurd (he ▸ ht) (by norm_num)
        · intro hc
          exact absurd hc (by simp)
      · by_cases h2 : t + (Enhanced.sdSierpinski (ro + t • rd)).1 * 0.6 > Enhanced.MAX_DIST
        · rw [enhanced_aux_break ro rd n t ot h h2]
          have hh : Enhanced.hits ro rd (n + 1) t = false := by
            simp only [Enhanced.hits]; rw [if_neg h, if_pos h2]
          rw [hh]
          simp
        · rw [enhanced_aux_advance ro rd n t ot h h2]
          have hh : Enhanced.hits ro rd (n + 1) t
              = Enhanced.hits ro rd n
                  (t + (Enhanced.sdSierpinski (ro + t • rd)).1 * 0.6) := by
            simp only [Enhanced.hits]; rw [if_neg h, if_neg h2]
          rw [hh]
          exact ih _ _ (add_nonneg ht
            (mul_nonneg (enhanced_sdf_nonneg _) (by norm_num : (0 : ℝ) ≤ 0.6)))

theorem simple_sel_far (v : Vec3) (hx : |v.x| ≤ v.z - 2) (hy : |v.y| ≤ v.z - 2)
    (hz : 3 ≤ v.z) :
    Simple.nearestVertex v = Simple.a1 ∨ Simple.nearestVertex v = Simple.a2 := by
  have hv : v = ⟨v.x, v.y, v.z⟩ := rfl
  have e1 : v - Simple.a1 = ⟨v.x - 1, v.y - 1, v.z - 1⟩ := by
    rw [hv]; exact vec3_mk_sub _ _ _ _ _ _
  have e2 : v - Simple.a2 = ⟨v.x + 1, v.y + 1, v.z - 1⟩ := by
    rw [hv, show ((⟨v.x, v.y, v.z⟩ : Vec3) - Simple.a2)
        = ⟨v.x - -1, v.y - -1, v.z - 1⟩ from vec3_mk_sub _ _ _ _ _ _]
    exact vec3_mk_eq _ _ _ _ _ _ (sub_neg_eq_add _ _) (sub_neg_eq_add _ _) rfl
  have e3 : v - Simple.a3 = ⟨v.x - 1, v.y + 1, v.z + 1⟩ := by
    rw [hv, show ((⟨v.x, v.y, v.z⟩ : Vec3) - Simple.a3)
        = ⟨v.x - 1, v.y - -1, v.z - -1⟩ from vec3_mk_sub _ _ _ _ _ _]
    exact vec3_mk_eq _ _ _ _ _ _ rfl (sub_neg_eq_add _ _) (sub_neg_eq_add _ _)
  have e4 : v - Simple.a4 = ⟨v.x + 1, v.y - 1, v.z + 1⟩ := by
    rw [hv, show ((⟨v.x, v.y, v.z⟩ : Vec3) - Simple.a4)
        = ⟨v.x - -1, v.y - 1, v.z - -1⟩ from vec3_mk_sub _ _ _ _ _ _]
    exact vec3_mk_eq _ _ _ _ _ _ (sub_neg_eq_add _ _) rfl (sub_neg_eq_add _ _)
  obtain ⟨hy1, hy2⟩ := abs_le.mp hy
  have hyz : (0 : ℝ) < v.y + v.z := by
    have h1 := add_le_add_right hy1 v.z
    rw [neg_sub, sub_add_cancel] at h1
    exact lt_of_lt_of_le (by norm_num) h1
  have d31 : length (v - Simple.a1) < length (v - Simple.a3) := by
    rw [e1, e3, length_mk, length_mk]
    exact Real.sqrt_lt_sqrt (sum_sq_nonneg _ _ _)
      (add3_lt_left _ _ _ _ _ (sq_cmp_sum v.y v.z hyz))
  have d42 : length (v - Simple.a2) < length (v - Simple.a4) := by
    rw [e2, e4, length_mk, length_mk]
    exact Real.sqrt_lt_sqrt (sum_sq_nonneg _ _ _)
      (add3_lt_left _ _ _ _ _ (sq_cmp_swap v.y v.z
        (lt_of_le_of_lt hy2 (sub_lt_self _ (by norm_num : (0 : ℝ) < 2)))))
  unfold Simple.nearestVertex Simple.selStep
  by_cases h21 : length (v - Simple.a2) < (Simple.a1, length (v - Simple.a1)).2
  · rw [if_pos h21]
    have h21' : length (v - Simple.a2) < length (v - Simple.a1) := h21
    have h3n : ¬ length (v - Simple.a3) < (Simple.a2, length (v - Simple.a2)).2 := by
      show ¬ length (v - Simple.a3) < length (v - Simple.a2)
      exact not_lt.mpr (le_of_lt (lt_trans h21' d31))
    rw [if_neg h3n]
    have h4n : ¬ length (v - Simple.a4) < (Simple.a2, length (v - Simple.a2)).2 := by
      show ¬ length (v - Simple.a4) < length (v - Simple.a2)
      exact not_lt.mpr (le_of_lt d42)
    rw [if_neg h4n]
    right; rfl
  · rw [if_neg h21]
    have h1le2 : length (v - Simple.a1) ≤ length (v - Simple.a2) := not_lt.mp h21
    have h3n : ¬ length (v - Simple.a3) < (Simple.a1, length (v - Simple.a1)).2 := by
      show ¬ length (v - Simple.a3) < length (v - Simple.a1)
      exact not_lt.mpr (le_of_lt d31)
    rw [if_neg h3n]
    have h4n : ¬ length (v - Simple.a4) < (Simple.a1, length (v - Simple.a1)).2 := by
      show ¬ length (v - Simple.a4) < length (v - Simple.a1)
      exact not_lt.mpr (le_trans h1le2 (le_of_lt d42))
    rw [if_neg h4n]
    left; rfl

theorem far_rhs (z : ℝ) : 2 * (z - 2) + 1 = 2 * z - 1 - 2 := by ring

theorem far_absm (x z : ℝ) (h : |x| ≤ z - 2) : |2 * x - 1| ≤ 2 * z - 1 - 2 :=
  calc |2 * x - 1| ≤ |2 * x| + |(1 : ℝ)| := abs_sub _ _
    _ = 2 * |x| + 1 := by rw [abs_mul, abs_two, abs_one]
    _ ≤ 2 * (z - 2) + 1 :=
        add_le_add_right (mul_le_mul_of_nonneg_left h (by norm_num)) 1
    _ = 2 * z - 1 - 2 := far_rhs z

theorem far_absp (x z : ℝ) (h : |x| ≤ z - 2) : |2 * x - -1| ≤ 2 * z - 1 - 2 :=
  calc |2 * x - -1| = |2 * x + 1| := by rw [sub_neg_eq_add]
    _ ≤ |2 * x| + |(1 : ℝ)| := abs_add _ _
    _ = 2 * |x| + 1 := by rw [abs_mul, abs_two, abs_one]
    _ ≤ 2 * (z - 2) + 1 :=
        add_le_add_right (mul_le_mul_of_nonneg_left h (by norm_num)) 1
    _ = 2 * z - 1 - 2 := far_rhs z

theorem far_z3 (z : ℝ) (hz : 3 ≤ z) : (3 : ℝ) ≤ 2 * z - 1 := by
  rw [le_sub_iff_add_le]
  exact (by norm_num : (3 : ℝ) + 1 ≤ 2 * 3).trans
    (mul_le_mul_of_nonneg_left hz (by norm_num))

theorem simple_step_far (v : Vec3) (hx : |v.x| ≤ v.z - 2) (hy : |v.y| ≤ v.z - 2)
    (hz : 3 ≤ v.z) :
    |(Simple.sierpinskiStep v).x| ≤ (Simple.sierpinskiStep v).z - 2 ∧
      |(Simple.sierpinskiStep v).y| ≤ (Simple.sierpinskiStep v).z - 2 ∧
      3 ≤ (Simple.sierpinskiStep v).z ∧
      (Simple.sierpinskiStep v).z = 2 * v.z - 1 := by
  rcases simple_sel_far v hx hy hz with hc | hc
  · have hstep : Simple.sierpinskiStep v = ⟨2 * v.x - 1, 2 * v.y - 1, 2 * v.z - 1⟩ := by
      rw [step_eval _ _ hc]
      exact vec3_mk_eq _ _ _ _ _ _ rfl rfl rfl
    rw [hstep]
    dsimp only
    exact ⟨far_absm v.x v.z hx, far_absm v.y v.z hy, far_z3 v.z hz, rfl⟩
  · have hstep : Simple.sierpinskiStep v = ⟨2 * v.x - -1, 2 * v.y - -1, 2 * v.z - 1⟩ := by
      rw [step_eval _ _ hc]
      exact vec3_mk_eq _ _ _ _ _ _ rfl rfl rfl
    rw [hstep]
    dsimp only
    exact ⟨far_absp v.x v.z hx, far_absp v.y v.z hy, far_z3 v.z hz, rfl⟩

theorem simple_iter_far (n : ℕ) (v : Vec3) (hx : |v.x| ≤ v.z - 2)
    (hy : |v.y| ≤ v.z - 2) (hz : 3 ≤ v.z) :
    |(Simple.sierpinskiStep^[n] v).x| ≤ (Simple.sierpinskiStep^[n] v).z - 2 ∧
      |(Simple.sierpinskiStep^[n] v).y| ≤ (Simple.sierpinskiStep^[n] v).z - 2 ∧
      3 ≤ (Simple.sierpinskiStep^[n] v).z ∧
      (Simple.sierpinskiStep^[n] v).z = 2 ^ n * (v.z - 1) + 1 := by
  induction n with
  | zero =>
      refine ⟨hx, hy, hz, ?_⟩
      rw [Function.iterate_zero_apply, pow_zero, one_mul, sub_add_cancel]
  | succ m ih =>
      obtain ⟨ih1, ih2, ih3, ih4⟩ := ih
      rw [Function.iterate_succ_apply']
      obtain ⟨g1, g2, g3, g4⟩ := simple_step_far _ ih1 ih2 ih3
      refine ⟨g1, g2, g3, ?_⟩
      rw [g4, ih4]
      exact iter_z_succ m (v.z - 1)

theorem simple_scale_pow : Simple.scale ^ (-(Simple.iterations : ℤ)) = (1 / 4096 : ℝ) := by
  unfold Simple.scale Simple.iterations
  norm_num

theorem simple_sdf_far (v : Vec3) (hx : |v.x| ≤ v.z - 2) (hy : |v.y| ≤ v.z - 2)
    (hz : 3 ≤ v.z) : 2 ≤ Simple.sierpinskiSDF v := by
  obtain ⟨h1, h2, h3, h4⟩ := simple_iter_far 12 v hx hy hz
  have hzv : (8193 : ℝ) ≤ (Simple.sierpinskiStep^[12] v).z := by
    have hz1 : (2 : ℝ) ≤ v.z - 1 := by
      rw [le_sub_iff_add_le]
      exact (by norm_num : (2 : ℝ) + 1 ≤ 3).trans hz
    have hm : (4096 : ℝ) * 2 ≤ 4096 * (v.z - 1) :=
      mul_le_mul_of_nonneg_left hz1 (by norm_num)
    rw [h4, show ((2 : ℝ) ^ (12 : ℕ)) = 4096 from by norm_num]
    calc (8193 : ℝ) = 4096 * 2 + 1 := by norm_num
      _ ≤ 4096 * (v.z - 1) + 1 := add_le_add_right hm 1
  have hlen : (8193 : ℝ) ≤ length (Simple.sierpinskiStep^[12] v) :=
    le_trans (le_trans hzv (le_abs_self _)) (abs_z_le_length _)
  show 2 ≤ length (Simple.sierpinskiStep^[Simple.iterations] v)
      * Simple.scale ^ (-(Simple.iterations : ℤ))
  rw [simple_scale_pow]
  have heq : length (Simple.sierpinskiStep^[Simple.iterations] v)
      = length (Simple.sierpinskiStep^[12] v) := rfl
  rw [heq]
  exact (by norm_num : (2 : ℝ) ≤ 8193 * (1 / 4096)).trans
    (mul_le_mul_of_nonneg_right hlen (by norm_num))

theorem simple_far_ray_miss :
    ∀ (fuel : ℕ) (t : ℝ) (steps : ℕ), 0 ≤ t →
      (Simple.rayMarchAux ⟨0, 0, 100⟩ ⟨0, 0, 1⟩ fuel t steps).1 = -1 := by
  intro fuel
  induction fuel with
  | zero => intro t steps _; rfl
  | succ n ih =>
      intro t steps ht
      have hpt : (⟨0, 0, 100⟩ : Vec3) + t • (⟨0, 0, 1⟩ : Vec3) = ⟨0, 0, 100 + t⟩ := by
        ext <;> simp
      have hsdf : 2 ≤ Simple.sierpinskiSDF ((⟨0, 0, 100⟩ : Vec3) + t • ⟨0, 0, 1⟩) := by
        rw [hpt]
        apply simple_sdf_far
        · show |(0 : ℝ)| ≤ 100 + t - 2
          rw [abs_zero]
          exact sub_nonneg.mpr
            ((by norm_num : (2 : ℝ) ≤ 100).trans (le_add_of_nonneg_right ht))
        · show |(0 : ℝ)| ≤ 100 + t - 2
          rw [abs_zero]
          exact sub_nonneg.mpr
            ((by norm_num : (2 : ℝ) ≤ 100).trans (le_add_of_nonneg_right ht))
        · show (3 : ℝ) ≤ 100 + t
          exact (by norm_num : (3 : ℝ) ≤ 100).trans (le_add_of_nonneg_right ht)
      have hnot : ¬ Simple.sierpinskiSDF ((⟨0, 0, 100⟩ : Vec3) + t • ⟨0, 0, 1⟩)
          < Simple.epsilon := by
        unfold Simple.epsilon
        exact not_lt.mpr ((by norm_num : (0.001 : ℝ) ≤ 2).trans hsdf)
      by_cases h2 : t + Simple.sierpinskiSDF ((⟨0, 0, 100⟩ : Vec3) + t • ⟨0, 0, 1⟩) * 0.5
          > Simple.maxDist
      · rw [simple_aux_break _ _ n t steps hnot h2]
      · rw [simple_aux_advance _ _ n t steps hnot h2]
        exact ih _ _ (add_nonneg ht (mul_nonneg
          ((by norm_num : (0 : ℝ) ≤ 2).trans hsdf) (by norm_num : (0 : ℝ) ≤ 0.5)))

theorem axis_nearest0 (z : ℝ) (hz : 1 ≤ z) :
    Simple.nearestVertex ⟨0, 0, z⟩ = Simple.a1 := by
  have hz0 : (0 : ℝ) ≤ z := zero_le_one.trans hz
  have e1 : (⟨0, 0, z⟩ : Vec3) - Simple.a1 = ⟨0 - 1, 0 - 1, z - 1⟩ := vec3_mk_sub _ _ _ _ _ _
  have e2 : (⟨0, 0, z⟩ : Vec3) - Simple.a2 = ⟨0 + 1, 0 + 1, z - 1⟩ := by
    rw [show ((⟨0, 0, z⟩ : Vec3) - Simple.a2)
        = ⟨0 - -1, 0 - -1, z - 1⟩ from vec3_mk_sub _ _ _ _ _ _]
    exact vec3_mk_eq _ _ _ _ _ _ (sub_neg_eq_add _ _) (sub_neg_eq_add _ _) rfl
  have e3 : (⟨0, 0, z⟩ : Vec3) - Simple.a3 = ⟨0 - 1, 0 + 1, z + 1⟩ := by
    rw [show ((⟨0, 0, z⟩ : Vec3) - Simple.a3)
        = ⟨0 - 1, 0 - -1, z - -1⟩ from vec3_mk_sub _ _ _ _ _ _]
    exact vec3_mk_eq _ _ _ _ _ _ rfl (sub_neg_eq_add _ _) (sub_neg_eq_add _ _)
  have e4 : (⟨0, 0, z⟩ : Vec3) - Simple.a4 = ⟨0 + 1, 0 - 1, z + 1⟩ := by
    rw [show ((⟨0, 0, z⟩ : Vec3) - Simple.a4)
        = ⟨0 - -1, 0 - 1, z - -1⟩ from vec3_mk_sub _ _ _ _ _ _]
    exact vec3_mk_eq _ _ _ _ _ _ (sub_neg_eq_add _ _) rfl (sub_neg_eq_add _ _)
  have hd21 : length ((⟨0, 0, z⟩ : Vec3) - Simple.a2)
      = length ((⟨0, 0, z⟩ : Vec3) - Simple.a1) := by
    rw [e1, e2, length_mk, length_mk,
      show ((0 : ℝ) + 1) ^ 2 + ((0 : ℝ) + 1) ^ 2
        = ((0 : ℝ) - 1) ^ 2 + ((0 : ℝ) - 1) ^ 2 from by norm_num]
  have hd31 : length ((⟨0, 0, z⟩ : Vec3) - Simple.a1)
      ≤ length ((⟨0, 0, z⟩ : Vec3) - Simple.a3) := by
    rw [e1, e3, length_mk, length_mk]
    exact Real.sqrt_le_sqrt (add_le_add
      (add_le_add_left (by norm_num : ((0 : ℝ) - 1) ^ 2 ≤ ((0 : ℝ) + 1) ^ 2) _)
      (sq_le_cmp z hz0))
  have hd41 : length ((⟨0, 0, z⟩ : Vec3) - Simple.a1)
      ≤ length ((⟨0, 0, z⟩ : Vec3) - Simple.a4) := by
    rw [e1, e4, length_mk, length_mk]
    exact Real.sqrt_le_sqrt (add_le_add
      (add_le_add_right (by norm_num : ((0 : ℝ) - 1) ^ 2 ≤ ((0 : ℝ) + 1) ^ 2) _)
      (sq_le_cmp z hz0))
  have h2n : ¬ length ((⟨0, 0, z⟩ : Vec3) - Simple.a2)
      < (Simple.a1, length ((⟨0, 0, z⟩ : Vec3) - Simple.a1)).2 := by
    show ¬ length ((⟨0, 0, z⟩ : Vec3) - Simple.a2)
        < length ((⟨0, 0, z⟩ : Vec3) - Simple.a1)
    exact not_lt.mpr (le_of_eq hd21.symm)
  have h3n : ¬ length ((⟨0, 0, z⟩ : Vec3) - Simple.a3)
      < (Simple.a1, length ((⟨0, 0, z⟩ : Vec3) - Simple.a1)).2 := by
    show ¬ length ((⟨0, 0, z⟩ : Vec3) - Simple.a3)
        < length ((⟨0, 0, z⟩ : Vec3) - Simple.a1)
    exact not_lt.mpr hd31
  have h4n : ¬ length ((⟨0, 0, z⟩ : Vec3) - Simple.a4)
      < (Simple.a1, length ((⟨0, 0, z⟩ : Vec3) - Simple.a1)).2 := by
    show ¬ length ((⟨0, 0, z⟩ : Vec3) - Simple.a4)
        < length ((⟨0, 0, z⟩ : Vec3) - Simple.a1)
    exact not_lt.mpr hd41
  unfold Simple.nearestVertex Simple.selStep
  rw [if_neg h2n, if_neg h3n, if_neg h4n]

theorem axis_step0 (z : ℝ) (hz : 1 ≤ z) :
    Simple.sierpinskiStep ⟨0, 0, z⟩ = ⟨-1, -1, 2 * z - 1⟩ := by
  rw [step_eval _ _ (axis_nearest0 z hz)]
  exact vec3_mk_eq _ _ _ _ _ _ (by norm_num [Simple.a1]) (by norm_num [Simple.a1]) rfl

theorem axis_nearest1 (w : ℝ) (hw : 1 ≤ w) :
    Simple.nearestVertex ⟨-1, -1, w⟩ = Simple.a2 := by
  have hw0 : (0 : ℝ) ≤ w := zero_le_one.trans hw
  have e1 : (⟨-1, -1, w⟩ : Vec3) - Simple.a1 = ⟨-1 - 1, -1 - 1, w - 1⟩ :=
    vec3_mk_sub _ _ _ _ _ _
  have e2 : (⟨-1, -1, w⟩ : Vec3) - Simple.a2 = ⟨-1 + 1, -1 + 1, w - 1⟩ := by
    rw [show ((⟨-1, -1, w⟩ : Vec3) - Simple.a2)
        = ⟨-1 - -1, -1 - -1, w - 1⟩ from vec3_mk_sub _ _ _ _ _ _]
    exact vec3_mk_eq _ _ _ _ _ _ (sub_neg_eq_add _ _) (sub_neg_eq_add _ _) rfl
  have e3 : (⟨-1, -1, w⟩ : Vec3) - Simple.a3 = ⟨-1 - 1, -1 + 1, w + 1⟩ := by
    rw [show ((⟨-1, -1, w⟩ : Vec3) - Simple.a3)
        = ⟨-1 - 1, -1 - -1, w - -1⟩ from vec3_mk_sub _ _ _ _ _ _]
    exact vec3_mk_eq _ _ _ _ _ _ rfl (sub_neg_eq_add _ _) (sub_neg_eq_add _ _)
  have e4 : (⟨-1, -1, w⟩ : Vec3) - Simple.a4 = ⟨-1 + 1, -1 - 1, w + 1⟩ := by
    rw [show ((⟨-1, -1, w⟩ : Vec3) - Simple.a4)
        = ⟨-1 - -1, -1 - 1, w - -1⟩ from vec3_mk_sub _ _ _ _ _ _]
    exact vec3_mk_eq _ _ _ _ _ _ (sub_neg_eq_add _ _) rfl (sub_neg_eq_add _ _)
  have hd21 : length ((⟨-1, -1, w⟩ : Vec3) - Simple.a2)
      < length ((⟨-1, -1, w⟩ : Vec3) - Simple.a1) := by
    rw [e1, e2, length_mk, length_mk]
    exact Real.sqrt_lt_sqrt (sum_sq_nonneg _ _ _)
      (add_lt_add_right (by norm_num : ((-1 : ℝ) + 1) ^ 2 + ((-1 : ℝ) + 1) ^ 2
        < ((-1 : ℝ) - 1) ^ 2 + ((-1 : ℝ) - 1) ^ 2) _)
  have hd32 : length ((⟨-1, -1, w⟩ : Vec3) - Simple.a2)
      ≤ length ((⟨-1, -1, w⟩ : Vec3) - Simple.a3) := by
    rw [e2, e3, length_mk, length_mk]
    exact Real.sqrt_le_sqrt (add_le_add
      (add_le_add_right (by norm_num : ((-1 : ℝ) + 1) ^ 2 ≤ ((-1 : ℝ) - 1) ^ 2) _)
      (sq_le_cmp w hw0))
  have hd42 : length ((⟨-1, -1, w⟩ : Vec3) - Simple.a2)
      ≤ length ((⟨-1, -1, w⟩ : Vec3) - Simple.a4) := by
    rw [e2, e4, length_mk, length_mk]
    exact Real.sqrt_le_sqrt (add_le_add
      (add_le_add_left (by norm_num : ((-1 : ℝ) + 1) ^ 2 ≤ ((-1 : ℝ) - 1) ^ 2) _)
      (sq_le_cmp w hw0))
  have h2p : length ((⟨-1, -1, w⟩ : Vec3) - Simple.a2)
      < (Simple.a1, length ((⟨-1, -1, w⟩ : Vec3) - Simple.a1)).2 := hd21
  have h3n : ¬ length ((⟨-1, -1, w⟩ : Vec3) - Simple.a3)
      < (Simple.a2, length ((⟨-1, -1, w⟩ : Vec3) - Simple.a2)).2 := by
    show ¬ length ((⟨-1, -1, w⟩ : Vec3) - Simple.a3)
        < length ((⟨-1, -1, w⟩ : Vec3) - Simple.a2)
    exact not_lt.mpr hd32
  have h4n : ¬ length ((⟨-1, -1, w⟩ : Vec3) - Simple.a4)
      < (Simple.a2, length ((⟨-1, -1, w⟩ : Vec3) - Simple.a2)).2 := by
    show ¬ length ((⟨-1, -1, w⟩ : Vec3) - Simple.a4)
        < length ((⟨-1, -1, w⟩ : Vec3) - Simple.a2)
    exact not_lt.mpr hd42
  unfold Simple.nearestVertex Simple.selStep
  rw [if_pos h2p, if_neg h3n, if_neg h4n]

theorem axis_step1 (w : ℝ) (hw : 1 ≤ w) :
    Simple.sierpinskiStep ⟨-1, -1, w⟩ = ⟨-1, -1, 2 * w - 1⟩ := by
  rw [step_eval _ _ (axis_nearest1 w hw)]
  exact vec3_mk_eq _ _ _ _ _ _ (by norm_num [Simple.a2]) (by norm_num [Simple.a2]) rfl

theorem axis_iter (z : ℝ) (hz : 1 ≤ z) (n : ℕ) :
    Simple.sierpinskiStep^[n + 1] ⟨0, 0, z⟩ = ⟨-1, -1, 2 ^ (n + 1) * (z - 1) + 1⟩ := by
  induction n with
  | zero =>
      rw [show (0 : ℕ) + 1 = 1 from rfl, Function.iterate_one, axis_step0 z hz]
      exact vec3_mk_eq _ _ _ _ _ _ rfl rfl (iter_z_one z)
  | succ m ih =>
      rw [Function.iterate_succ_apply', ih]
      have hw1 : (1 : ℝ) ≤ 2 ^ (m + 1) * (z - 1) + 1 :=
        le_add_of_nonneg_left
          (mul_nonneg (pow_nonneg (by norm_num) _) (sub_nonneg.mpr hz))
      rw [axis_step1 _ hw1]
      exact vec3_mk_eq _ _ _ _ _ _ rfl rfl (iter_z_succ (m + 1) (z - 1))

theorem axis_sdf (z : ℝ) (hz : 1 ≤ z) :
    Simple.sierpinskiSDF ⟨0, 0, z⟩
      = Real.sqrt (2 + (4096 * (z - 1) + 1) ^ 2) * (1 / 4096) := by
  have h12 : Simple.sierpinskiStep^[12] ⟨0, 0, z⟩ = ⟨-1, -1, 4096 * (z - 1) + 1⟩ := by
    refine (axis_iter z hz 11).trans ?_
    ext <;> dsimp only <;> norm_num
  show length (Simple.sierpinskiStep^[Simple.iterations] ⟨0, 0, z⟩)
      * Simple.scale ^ (-(Simple.iterations : ℤ)) = _
  rw [simple_scale_pow, show Simple.iterations = 12 from rfl, h12, length_mk,
    show ((-1 : ℝ)) ^ 2 + ((-1 : ℝ)) ^ 2 = (2 : ℝ) from by norm_num]

theorem hit_sample_point (t : ℝ) :
    (⟨0, 0, 4.5⟩ : Vec3) + t • (⟨0, 0, -1⟩ : Vec3) = ⟨0, 0, 4.5 - t⟩ := by
  ext <;> simp <;> ring

theorem u_eq (t : ℝ) : 4096 * (4.5 - t - 1) + 1 = 4096 * (7 / 2 - t) + 1 := by
  have h : (4.5 : ℝ) - t - 1 = 7 / 2 - t := by
    rw [show (4.5 : ℝ) = 9 / 2 from by norm_num, sub_right_comm]
    norm_num
  rw [h]

theorem u_div (d : ℝ) : (4096 * d + 1) * (1 / 4096) = d + 1 / 4096 := by
  rw [add_mul, one_mul, mul_comm (4096 : ℝ) d, mul_assoc]
  norm_num

theorem bound_transfer (d u : ℝ) (hu : 0 ≤ u)
    (he : u * (1 / 4096) = d + 1 / 4096) :
    d + 1 / 4096 ≤ Real.sqrt (2 + u ^ 2) * (1 / 4096) ∧
      Real.sqrt (2 + u ^ 2) * (1 / 4096) ≤ d + 1 / 4096 + 3 / 8192 := by
  constructor
  · rw [← he]
    exact mul_le_mul_of_nonneg_right (sqrt_two_add_sq_lb u hu) (by norm_num)
  · have h1 : Real.sqrt (2 + u ^ 2) * (1 / 4096) ≤ (u + 3 / 2) * (1 / 4096) :=
      mul_le_mul_of_nonneg_right (sqrt_two_add_sq_ub u hu) (by norm_num)
    rw [add_mul, he,
      show (3 / 2 : ℝ) * (1 / 4096) = 3 / 8192 from by norm_num] at h1
    exact h1

theorem ray_z_ge (t : ℝ) (h : t ≤ 7 / 2) : (1 : ℝ) ≤ 4.5 - t := by
  rw [show (4.5 : ℝ) = 9 / 2 from by norm_num,
    show (1 : ℝ) = 9 / 2 - 7 / 2 from by norm_num]
  exact sub_le_sub_left h _

theorem half_lt_of_small (s d : ℝ) (hdel : 7 / 10240 ≤ d)
    (hsu : s ≤ d + 1 / 4096 + 3 / 8192) : s / 2 < d := by
  have hsu' : s ≤ d + 5 / 8192 := by
    rw [show (5 : ℝ) / 8192 = 1 / 4096 + 3 / 8192 from by norm_num, ← add_assoc]
    exact hsu
  have hq : (5 : ℝ) / 16384 < d / 2 :=
    lt_of_lt_of_le (by norm_num : (5 : ℝ) / 16384 < 7 / 10240 / 2)
      ((div_le_div_right (by norm_num : (0 : ℝ) < 2)).mpr hdel)
  have hs2 : s / 2 ≤ d / 2 + 5 / 16384 := by
    rw [show (5 : ℝ) / 16384 = 5 / 8192 / 2 from by norm_num, ← add_div]
    exact (div_le_div_right (by norm_num : (0 : ℝ) < 2)).mpr hsu'
  have hlt : d / 2 + 5 / 16384 < d := by
    have h2 := add_lt_add_left hq (d / 2)
    rwa [add_halves] at h2
  exact lt_of_le_of_lt hs2 hlt

theorem ray_sdf_hit_iff (t : ℝ) (h : t ≤ 7 / 2) :
    (Simple.sierpinskiSDF ((⟨0, 0, 4.5⟩ : Vec3) + t • ⟨0, 0, -1⟩) < Simple.epsilon
      ↔ 2 + (4096 * (7 / 2 - t) + 1) ^ 2 < (512 / 125 : ℝ) ^ 2) := by
  rw [hit_sample_point t, axis_sdf (4.5 - t) (ray_z_ge t h),
    show Simple.epsilon = (0.001 : ℝ) from rfl, u_eq t]
  exact sqrt_two_add_sq_lt_iff _

theorem ray_sdf_bounds (t : ℝ) (h : t ≤ 7 / 2) :
    7 / 2 - t + 1 / 4096
        ≤ Simple.sierpinskiSDF ((⟨0, 0, 4.5⟩ : Vec3) + t • ⟨0, 0, -1⟩) ∧
      Simple.sierpinskiSDF ((⟨0, 0, 4.5⟩ : Vec3) + t • ⟨0, 0, -1⟩)
        ≤ 7 / 2 - t + 1 / 4096 + 3 / 8192 := by
  rw [hit_sample_point t, axis_sdf (4.5 - t) (ray_z_ge t h)]
  have hu0 : (0 : ℝ) ≤ 4096 * (4.5 - t - 1) + 1 :=
    add_nonneg (mul_nonneg (by norm_num) (sub_nonneg.mpr (ray_z_ge t h)))
      zero_le_one
  have he : (4096 * (4.5 - t - 1) + 1) * (1 / 4096) = 7 / 2 - t + 1 / 4096 := by
    rw [u_eq t]
    exact u_div (7 / 2 - t)
  exact bound_transfer (7 / 2 - t) _ hu0 he

theorem march_step (t s c : ℝ) (hd : 0 < 7 / 2 - t)
    (hb : 7 / 2 - t ≤ 2 * c) (hsl : 7 / 2 - t + 1 / 4096 ≤ s)
    (hsu : s ≤ 7 / 2 - t + 1 / 4096 + 3 / 8192) (hdel : 7 / 10240 ≤ 7 / 2 - t) :
    t ≤ t + s / 2 ∧ 0 < 7 / 2 - (t + s / 2) ∧ 7 / 2 - (t + s / 2) ≤ c := by
  have hs0 : 0 < s := lt_of_lt_of_le (add_pos hd (by norm_num)) hsl
  refine ⟨le_add_of_nonneg_right (div_nonneg hs0.le (by norm_num)), ?_, ?_⟩
  · rw [sub_add_eq_sub_sub]
    exact sub_pos.mpr (half_lt_of_small s (7 / 2 - t) hdel hsu)
  · rw [sub_add_eq_sub_sub]
    have hs2l : (7 / 2 - t) / 2 ≤ s / 2 :=
      (div_le_div_right (by norm_num : (0 : ℝ) < 2)).mpr
        ((le_add_of_nonneg_right (by norm_num : (0 : ℝ) ≤ 1 / 4096)).trans hsl)
    have hsub : 7 / 2 - t - s / 2 ≤ 7 / 2 - t - (7 / 2 - t) / 2 :=
      sub_le_sub_left hs2l _
    have hc2 : (7 / 2 - t) / 2 ≤ c := by
      rw [div_le_iff₀ (by norm_num : (0 : ℝ) < 2), mul_comm]
      exact hb
    exact hsub.trans ((le_of_eq (sub_half _)).trans hc2)

theorem simple_hit_aux :
    ∀ (fuel : ℕ) (t : ℝ) (steps : ℕ),
      0 ≤ t → 0 < 7 / 2 - t → 7 / 2 - t ≤ 2 ^ fuel * (1 / 4096 : ℝ) →
      0 ≤ (Simple.rayMarchAux ⟨0, 0, 4.5⟩ ⟨0, 0, -1⟩ (fuel + 1) t steps).1 ∧
        t ≤ (Simple.rayMarchAux ⟨0, 0, 4.5⟩ ⟨0, 0, -1⟩ (fuel + 1) t steps).2.1 ∧
        (Simple.rayMarchAux ⟨0, 0, 4.5⟩ ⟨0, 0, -1⟩ (fuel + 1) t steps).2.1
          < 9 / 2 := by
  intro fuel
  induction fuel with
  | zero =>
      intro t steps ht hd hb
      rw [pow_zero, one_mul] at hb
      have hhit : Simple.sierpinskiSDF ((⟨0, 0, 4.5⟩ : Vec3) + t • ⟨0, 0, -1⟩)
          < Simple.epsilon :=
        (ray_sdf_hit_iff t (sub_pos.mp hd).le).mpr (hit_window (7 / 2 - t) hd hb)
      rw [simple_aux_hit _ _ 0 t steps hhit]
      exact ⟨simple_sdf_nonneg _, le_rfl,
        lt_trans (sub_pos.mp hd) (by norm_num : (7 / 2 : ℝ) < 9 / 2)⟩
  | succ m ih =>
      intro t steps ht hd hb
      have ht72 : t ≤ 7 / 2 := (sub_pos.mp hd).le
      by_cases hhit : Simple.sierpinskiSDF ((⟨0, 0, 4.5⟩ : Vec3) + t • ⟨0, 0, -1⟩)
          < Simple.epsilon
      · rw [simple_aux_hit _ _ (m + 1) t steps hhit]
        exact ⟨simple_sdf_nonneg _, le_rfl,
          lt_trans (sub_pos.mp hd) (by norm_num : (7 / 2 : ℝ) < 9 / 2)⟩
      · set s := Simple.sierpinskiSDF ((⟨0, 0, 4.5⟩ : Vec3) + t • ⟨0, 0, -1⟩) with hs
        obtain ⟨hsl, hsu⟩ := ray_sdf_bounds t ht72
        rw [← hs] at hsl hsu
        have hdel : 7 / 10240 ≤ 7 / 2 - t :=
          nonhit_delta (7 / 2 - t) hd
            (not_lt.mp fun hc => hhit ((ray_sdf_hit_iff t ht72).mpr hc))
        rw [two_pow_succ_mul m (1 / 4096)] at hb
        obtain ⟨hA, hB, hC⟩ :=
          march_step t s (2 ^ m * (1 / 4096)) hd hb hsl hsu hdel
        have hnb : ¬ (t + s * 0.5 > Simple.maxDist) := by
          show ¬ (t + s * 0.5 > (20 : ℝ))
          rw [mul_half s]
          exact not_lt.mpr
            ((sub_pos.mp hB).le.trans (by norm_num : (7 / 2 : ℝ) ≤ 20))
        rw [simple_aux_advance _ _ (m + 1) t steps hhit hnb, ← hs, mul_half s]
        obtain ⟨r1, r2, r3⟩ := ih (t + s / 2) (steps + 1) (ht.trans hA) hB hC
        exact ⟨r1, hA.trans r2, r3⟩

/-- C4: the simple-variant ray marcher launched from origin `(0,0,4.5)` in
direction `(0,0,-1)` (aimed at the fractal) finds the surface: it does not
return the miss sentinel `-1`, and the hit distance it reports (the
out-parameter `totalDist`) is strictly between 0 and 4.5. -/
theorem c4_hit_case :
    (Simple.rayMarch ⟨0, 0, 4.5⟩ ⟨0, 0, -1⟩).1 ≠ -1 ∧
      0 < (Simple.rayMarch ⟨0, 0, 4.5⟩ ⟨0, 0, -1⟩).2.1 ∧
      (Simple.rayMarch ⟨0, 0, 4.5⟩ ⟨0, 0, -1⟩).2.1 < 4.5 := by
  set s0 := Simple.sierpinskiSDF ((⟨0, 0, 4.5⟩ : Vec3) + (0 : ℝ) • ⟨0, 0, -1⟩) with hs0
  obtain ⟨hsl, hsu⟩ := ray_sdf_bounds 0 (by norm_num : (0 : ℝ) ≤ 7 / 2)
  rw [← hs0] at hsl hsu
  have hs0pos : 0 < s0 :=
    lt_of_lt_of_le (by norm_num : (0 : ℝ) < 7 / 2 - 0 + 1 / 4096) hsl
  have hnhit : ¬ s0 < Simple.epsilon := by
    rw [hs0]
    intro hc
    exact absurd ((ray_sdf_hit_iff 0 (by norm_num : (0 : ℝ) ≤ 7 / 2)).mp hc)
      (not_lt.mpr (by norm_num))
  have hs04 : s0 ≤ 4 :=
    hsu.trans (by norm_num : (7 / 2 : ℝ) - 0 + 1 / 4096 + 3 / 8192 ≤ 4)
  have hnbrk : ¬ ((0 : ℝ) + s0 * 0.5 > Simple.maxDist) := by
    show ¬ ((0 : ℝ) + s0 * 0.5 > (20 : ℝ))
    rw [mul_half s0, zero_add]
    exact not_lt.mpr (((div_le_div_right (by norm_num : (0 : ℝ) < 2)).mpr
      hs04).trans (by norm_num : (4 : ℝ) / 2 ≤ 20))
  have e1 : Simple.rayMarch ⟨0, 0, 4.5⟩ ⟨0, 0, -1⟩
      = Simple.rayMarchAux ⟨0, 0, 4.5⟩ ⟨0, 0, -1⟩ (255 + 1) 0 0 := rfl
  rw [e1, simple_aux_advance _ _ 255 0 0 hnhit hnbrk, ← hs0, mul_half s0]
  have h0t : (0 : ℝ) ≤ 0 + s0 / 2 := by
    rw [zero_add]
    exact div_nonneg hs0pos.le (by norm_num)
  have hd1 : 0 < 7 / 2 - (0 + s0 / 2) := by
    rw [zero_add]
    exact sub_pos.mpr (lt_of_le_of_lt
      ((div_le_div_right (by norm_num : (0 : ℝ) < 2)).mpr hs04)
      (by norm_num : (4 : ℝ) / 2 < 7 / 2))
  have hb1 : 7 / 2 - (0 + s0 / 2) ≤ 2 ^ (254 : ℕ) * (1 / 4096 : ℝ) :=
    (sub_le_self _ h0t).trans
      (by norm_num : (7 / 2 : ℝ) ≤ 2 ^ (254 : ℕ) * (1 / 4096))
  obtain ⟨r1, r2, r3⟩ := simple_hit_aux 254 (0 + s0 / 2) (0 + 1) h0t hd1 hb1
  refine ⟨?_, ?_, ?_⟩
  · intro hc
    rw [hc] at r1
    exact absurd r1 (by norm_num)
  · exact lt_of_lt_of_le
      (show (0 : ℝ) < 0 + s0 / 2 by
        rw [zero_add]; exact div_pos hs0pos (by norm_num)) r2
  · exact lt_of_lt_of_le r3 (by norm_num : (9 / 2 : ℝ) ≤ 4.5)

/-- C3: each variant's `rayMarch` returns the miss sentinel `-1` exactly when
its marching loop terminates (budget exhausted or `t` driven past the maximum
distance) without any sampled distance dropping below the hit threshold; in
particular the simple marcher launched from `(0,0,100)` in direction
`(0,0,1)` (pointing away from the fractal) returns `-1`. -/
theorem c3_miss_characterization :
    (∀ ro rd : Vec3, (Simple.rayMarch ro rd).1 = -1 ↔
        Simple.hits ro rd Simple.maxSteps 0 = false) ∧
      (∀ ro rd : Vec3, (Enhanced.rayMarch ro rd).1 = -1 ↔
        Enhanced.hits ro rd Enhanced.MAX_MARCH_STEPS 0 = false) ∧
      (Simple.rayMarch ⟨0, 0, 100⟩ ⟨0, 0, 1⟩).1 = -1 :=
  ⟨fun ro rd => simple_aux_miss_iff ro rd Simple.maxSteps 0 0,
   fun ro rd => enhanced_aux_miss_iff ro rd Enhanced.MAX_MARCH_STEPS 0 ⟨1e10, 1e10, 1e10⟩ le_rfl,
   simple_far_ray_miss Simple.maxSteps 0 0 le_rfl⟩

/-- C8: within one call of the enhanced distance estimator, the orbit trap
is reset to `vec3(1e10)` at the start; each of its three components is
monotonically non-increasing across the iterations, and after any number of
iterations each component equals the running minimum (seeded at `1e10`) of
its per-iteration sampled values; the estimator's output trap is the state
after all 14 iterations. -/
theorem c8_orbit_trap_running_min (p : Vec3) :
    (Enhanced.iterStateAt p 0).orbitTrap = ⟨1e10, 1e10, 1e10⟩ ∧
      (∀ k : ℕ,
        (Enhanced.iterStateAt p (k + 1)).orbitTrap.x
            ≤ (Enhanced.iterStateAt p k).orbitTrap.x ∧
          (Enhanced.iterStateAt p (k + 1)).orbitTrap.y
            ≤ (Enhanced.iterStateAt p k).orbitTrap.y ∧
          (Enhanced.iterStateAt p (k + 1)).orbitTrap.z
            ≤ (Enhanced.iterStateAt p k).orbitTrap.z) ∧
      (∀ k : ℕ,
        (Enhanced.iterStateAt p k).orbitTrap.x
            = Enhanced.runMin (Enhanced.trapSample1 p) k ∧
          (Enhanced.iterStateAt p k).orbitTrap.y
            = Enhanced.runMin (Enhanced.trapSample2 p) k ∧
          (Enhanced.iterStateAt p k).orbitTrap.z
            = Enhanced.runMin (Enhanced.trapSample3 p) k) ∧
      (Enhanced.sdSierpinski p).2 = (Enhanced.iterStateAt p 14).orbitTrap := by
  refine ⟨rfl, ?_, trap_runmin p, rfl⟩
  intro k
  rw [iterStateAt_succ, iterStep_trap]
  exact ⟨min_le_left _ _, min_le_left _ _, min_le_left _ _⟩

end SierpinskiRepo
